import Mathlib

/-!
Verification of the Embedded-Software-Architecture-Validation core:
a shallow embedding of `src/core/elf_parser.py` (ELF symbol/function
extraction, address index, call-graph resolution, JSON cache),
`src/Application_Logic/Logic_Symbol_Matcher.py` (fuzzy matcher) and the
Init-column reconciliation state machine of
`src/Application_Logic/Logic_Architecture_Table.py` /
`Logic_Column_Types.py`, together with proofs of the specification
claims about them.
-/

namespace ElfParser

/-- `Symbol` dataclass (elf_parser.py).  The `section` field is named
`sectionName` here because `section` is a Lean keyword. -/
structure Symbol where
  name : String
  address : Nat
  size : Nat
  symbol_type : String
  binding : String
  sectionName : String
deriving DecidableEq, Repr

/-- One `{'name': ..., 'type': ...}` parameter / field dictionary. -/
structure Param where
  name : String
  type : String
deriving DecidableEq, Repr

/-- `Function` dataclass (elf_parser.py). -/
structure Function where
  name : String
  address : Nat
  size : Nat
  parameters : List Param
  return_type : Option String
deriving DecidableEq, Repr

/-- An ELF section as far as `get_function_bytes` consumes it:
`sh_flags`, `sh_addr`, `sh_size` and the raw byte contents. -/
structure ElfSection where
  flags : Nat
  addr : Nat
  size : Nat
  data : List Nat
deriving DecidableEq, Repr

/-- The mutable state of an `ELFParser` instance.  `elf_syms` stands for
the symbol stream the open ELF file would yield (`_generate_symbols`);
`sorted_func_addrs` is the stored `_sorted_func_addrs` snapshot.  The
`_func_addr_map` dict is modelled by `func_addr_lookup` below: its
values are references into `functions`, so looking the key up in the
current function list is exactly what the dict access sees. -/
structure ParserState where
  elf_syms : List Symbol
  symbols : List Symbol
  functions : List Function
  structures : List (String × List Param)
  global_vars : List (String × String)
  sorted_func_addrs : List Nat
  arch : String
  has_elf : Bool
  sections : List ElfSection
  elf_path : String
  md5_hash : String
deriving DecidableEq, Repr

/-- `_normalize_address`: clear the Thumb bit (`address & ~1`) when an
ELF file is open and its machine architecture is ARM. -/
def ParserState.normalize (st : ParserState) (a : Nat) : Nat :=
  if st.has_elf ∧ st.arch = "ARM" then a - a % 2 else a

/-- Sorted list of naturals, as Python's `sorted` produces on a list of
distinct keys (sortedness plus permutation determines it uniquely). -/
def sortNat (l : List Nat) : List Nat :=
  List.insertionSort (· ≤ ·) l

/-- Key set of `_func_addr_map` in sorted order: `_sorted_func_addrs`.
The dict comprehension `{normalize(f.address): f for f in functions}`
has one key per distinct normalized address. -/
def buildAddrKeys (st : ParserState) : List Nat :=
  sortNat ((st.functions.map fun f => st.normalize f.address).dedup)

/-- `self._func_addr_map[k]`: the dict comprehension lets the last
function with a given normalized address win. -/
def ParserState.func_addr_lookup (st : ParserState) (k : Nat) : Option Function :=
  (st.functions.filter fun f => st.normalize f.address == k).getLast?

/-- `_build_function_address_map`. -/
def ParserState.build_function_address_map (st : ParserState) : ParserState :=
  if st.functions = [] ∧ st.symbols = [] then st
  else { st with sorted_func_addrs := buildAddrKeys st }

/-- `bisect.bisect_right` on a sorted list: the number of entries `≤ x`
(the insertion point after any existing entries equal to `x`). -/
def bisect_right (l : List Nat) (x : Nat) : Nat :=
  (l.takeWhile fun k => decide (k ≤ x)).length

/-- The invariant that the stored address index matches the current
function list (it was built by `extract_all` / `load_cache`). -/
def ParserState.indexBuilt (st : ParserState) : Prop :=
  st.sorted_func_addrs = buildAddrKeys st

/-- `get_function_containing_address`.  Returns the possibly updated
state (the method lazily rebuilds the index when the stored key list is
empty) together with the result.  The dict access
`self._func_addr_map[...]` cannot fail when the index matches the
function list; the `none` fallback models the unreachable `KeyError`. -/
def ParserState.get_function_containing_address (st : ParserState) (address : Nat) :
    ParserState × Option Function :=
  let st := if st.sorted_func_addrs = [] then st.build_function_address_map else st
  let norm_addr := st.normalize address
  let idx := bisect_right st.sorted_func_addrs norm_addr
  if idx = 0 then (st, none)
  else
    match st.sorted_func_addrs.get? (idx - 1) with
    | none => (st, none)
    | some k =>
      match st.func_addr_lookup k with
      | none => (st, none)
      | some candidate =>
        if candidate.size > 0 ∧ candidate.address ≤ norm_addr ∧
            norm_addr < candidate.address + candidate.size then
          (st, some candidate)
        else (st, none)

/-- Python `pat in s`: `pat` occurs as a contiguous substring of `s`. -/
def occursIn (pat s : String) : Bool :=
  decide (pat.toList <:+: s.toList)

/-- ASCII lowercase of one character (`str.lower()` on the identifier
alphabet). -/
def pyLowerChar (c : Char) : Char :=
  if c.isUpper then Char.ofNat (c.toNat + 32) else c

/-- `s.lower()`. -/
def pyLower (s : String) : String :=
  String.mk (s.toList.map pyLowerChar)

/-- `s.strip()`: drop leading and trailing whitespace. -/
def pyTrim (s : String) : String :=
  String.mk (((s.toList.dropWhile Char.isWhitespace).reverse.dropWhile
    Char.isWhitespace).reverse)

/-- `s.endswith(suffix)`. -/
def pyEndsWith (s suffix : String) : Bool :=
  decide (suffix.toList <:+ s.toList)

/-- `_generate_functions` applied to an already populated symbol list:
filter the `STT_FUNC` symbols into `Function` records with empty
parameter lists. -/
def generate_functions (symbols : List Symbol) : List Function :=
  (symbols.filter fun s => s.symbol_type == "STT_FUNC").map fun s =>
    { name := s.name, address := s.address, size := s.size,
      parameters := [], return_type := none }

/-- `extract_symbols`: populate `symbols` from the ELF stream when the
list is still empty (lazy, memoized). -/
def ParserState.extract_symbols (st : ParserState) : ParserState :=
  if st.symbols = [] then { st with symbols := st.elf_syms } else st

/-- `extract_functions`: populate `functions` when the list is still
empty; `_generate_functions` itself first fills `symbols` if needed. -/
def ParserState.extract_functions (st : ParserState) : ParserState :=
  if st.functions ≠ [] then st
  else
    let st := st.extract_symbols
    { st with functions := generate_functions st.symbols }

/-- `search_function`.  The boolean-key `results.sort(key=lambda f:
f.name != name)` is a stable sort on `False < True`, i.e. the exact-name
matches in order followed by the remaining matches in order. -/
def ParserState.search_function (st : ParserState) (name : String) (exact : Bool) :
    ParserState × List Function :=
  let st := if st.functions = [] then st.extract_functions else st
  let q := pyTrim name
  let filtered := st.functions.filter fun f =>
    ¬ occursIn "_EXIT_" f.name ∧ ¬ pyEndsWith f.name "_function_end"
  if exact then (st, filtered.filter fun f => f.name == q)
  else
    let results := filtered.filter fun f => occursIn (pyLower q) (pyLower f.name)
    (st, (results.filter fun f => f.name == q) ++ (results.filter fun f => f.name != q))

/-- `get_symbol_by_address`: linear scan for the first symbol with the
exact address. -/
def ParserState.get_symbol_by_address (st : ParserState) (address : Nat) :
    ParserState × Option Symbol :=
  let st := if st.symbols = [] then st.extract_symbols else st
  (st, st.symbols.find? fun s => s.address == address)

/-- `get_statistics`: total symbols, `STT_FUNC` count, `STT_OBJECT`
count. -/
def ParserState.get_statistics (st : ParserState) : ParserState × (Nat × Nat × Nat) :=
  let st := if st.symbols = [] then st.extract_symbols else st
  (st, (st.symbols.length,
        (st.symbols.filter fun s => s.symbol_type == "STT_FUNC").length,
        (st.symbols.filter fun s => s.symbol_type == "STT_OBJECT").length))

/-- Capstone architecture/mode constants (values of the external
`capstone` module; only their identities matter here). -/
def CS_ARCH_ARM : Nat := 0
def CS_ARCH_ARM64 : Nat := 1
def CS_ARCH_MIPS : Nat := 2
def CS_ARCH_X86 : Nat := 3
def CS_ARCH_TRICORE : Nat := 4
def CS_MODE_ARM : Nat := 0
def CS_MODE_THUMB : Nat := 16
def CS_MODE_32 : Nat := 4
def CS_MODE_64 : Nat := 8
def CS_MODE_MIPS32 : Nat := 4
def CS_MODE_TRICORE_162 : Nat := 64

/-- `_get_capstone_instance`: architecture dispatch on the machine-arch
string, returning the decoder configuration or `none`. -/
def get_capstone_instance (capstone_available : Bool) (has_elf : Bool)
    (arch : String) (address : Nat) : Option (Nat × Nat) :=
  if ¬ capstone_available ∨ ¬ has_elf then none
  else if arch = "ARM" then
    some (CS_ARCH_ARM, if address % 2 = 1 then CS_MODE_THUMB else CS_MODE_ARM)
  else if arch = "AArch64" then some (CS_ARCH_ARM64, CS_MODE_ARM)
  else if arch = "x86" ∨ arch = "Intel 80386" then some (CS_ARCH_X86, CS_MODE_32)
  else if arch = "x64" ∨ arch = "AMD64" ∨ arch = "x86-64" then some (CS_ARCH_X86, CS_MODE_64)
  else if arch = "MIPS" then some (CS_ARCH_MIPS, CS_MODE_MIPS32)
  else if occursIn "TriCore" arch then some (CS_ARCH_TRICORE, CS_MODE_TRICORE_162)
  else none

/-- `get_function_bytes`: the first executable section
(`sh_flags & 0x4`) containing the normalized function address yields
`data[offset : offset+read_size]`, clipped to the section bounds. -/
def ParserState.get_function_bytes (st : ParserState) (func : Function) : List Nat :=
  if ¬ st.has_elf then []
  else
    let func_addr := st.normalize func.address
    match st.sections.find? (fun sec =>
        decide (sec.flags &&& 4 ≠ 0) && decide (sec.addr ≤ func_addr) &&
        decide (func_addr < sec.addr + sec.size)) with
    | none => []
    | some sec =>
      let offset := func_addr - sec.addr
      let read_size := if offset + func.size > sec.size then sec.size - offset else func.size
      (sec.data.drop offset).take read_size

/-- A decoded instruction operand as `extract_subcalls` inspects it:
the capstone operand type tag (`2` is an immediate) and the signed
immediate value. -/
structure Operand where
  otype : Nat
  imm : Int
deriving DecidableEq, Repr

/-- A decoded instruction: mnemonic plus operand list. -/
structure Insn where
  mnemonic : String
  operands : List Operand
deriving DecidableEq, Repr

/-- The call/branch-with-link mnemonic set of `extract_subcalls`. -/
def call_mnemonics : List String :=
  ["CALL", "BL", "BLX", "JAL", "JALR", "JL", "CALLA", "FCALL"]

/-- ASCII uppercase of one character (`str.upper()` on the mnemonic
alphabet). -/
def pyUpperChar (c : Char) : Char :=
  if c.isLower then Char.ofNat (c.toNat - 32) else c

/-- `insn.mnemonic.upper()`. -/
def pyUpper (s : String) : String :=
  String.mk (s.toList.map pyUpperChar)

/-- `op.imm & 0xFFFFFFFF`: Python's bitwise and with the 32-bit mask
equals reduction modulo `2^32` (two's complement on negatives). -/
def maskTarget (imm : Int) : Nat :=
  (imm % (2 ^ 32 : Int)).toNat

/-- The masked immediate targets of the call/branch instructions of a
decoded stream, in order (mnemonic uppercased and matched against the
call set, first operand, immediate type only). -/
def insnTargets (insns : List Insn) : List Nat :=
  insns.foldr
    (fun insn acc =>
      if pyUpper insn.mnemonic ∈ call_mnemonics then
        match insn.operands.head? with
        | some op => if op.otype = 2 then maskTarget op.imm :: acc else acc
        | none => acc
      else acc)
    []

/-- Resolution of one masked call target, in the strict priority order
of `extract_subcalls`: exact normalized-start map hit, containing
function, raw symbol table, hexadecimal literal.  The two inner queries
leave the state unchanged on a populated, index-built parser, so only
their results are consumed here. -/
def ParserState.resolve_call_target (st : ParserState) (target : Nat) : String :=
  let norm_target := st.normalize target
  match st.func_addr_lookup norm_target with
  | some f => f.name
  | none =>
    match (st.get_function_containing_address target).2 with
    | some f => f.name
    | none =>
      match (st.get_symbol_by_address target).2 with
      | some s => s.name
      | none => "0x" ++ String.mk (Nat.toDigits 16 target)

/-- Replace the size of the first function with the given name (the
object found by `next(...)` is mutated in place, so the entry inside
`self.functions` changes with it). -/
def updateFirstSize (fns : List Function) (n : String) (sz : Nat) : List Function :=
  match fns with
  | [] => []
  | f :: rest =>
    if f.name == n then { f with size := sz } :: rest
    else f :: updateFirstSize rest n sz

/-- Code-point lexicographic comparison of two character lists
(Python's string ordering). -/
def charListLeB : List Char → List Char → Bool
  | [], _ => true
  | _ :: _, [] => false
  | a :: as, b :: bs =>
    if a.toNat < b.toNat then true
    else if b.toNat < a.toNat then false
    else charListLeB as bs

/-- `a <= b` on strings as Python's `sorted` compares them. -/
def pyStrLe (a b : String) : Prop :=
  charListLeB a.toList b.toList = true

instance instDecidablePyStrLe : DecidableRel pyStrLe := fun a b => by
  unfold pyStrLe; infer_instance

/-- Sorted list of strings, as `sorted` produces on the distinct
elements of a Python set. -/
def sortStr (l : List String) : List String :=
  List.insertionSort pyStrLe l

/-- `extract_subcalls`.  `cap` is `CAPSTONE_AVAILABLE`; `decode` stands
for the external capstone disassembler (bytes and start address to
instruction stream, skipdata enabled so it is total).  Returns the
state after the call (the zero-size estimation writes into the shared
`Function` object) with the result list. -/
def ParserState.extract_subcalls (cap : Bool) (decode : List Nat → Nat → List Insn)
    (st : ParserState) (func_name : String) : ParserState × List String :=
  if ¬ cap then (st, ["Capstone not installed"])
  else
    match st.functions.find? (fun f => f.name == func_name) with
    | none => (st, ["Function not found"])
    | some func0 =>
      let start0 := st.normalize func0.address
      let est : Nat :=
        if func0.size = 0 then
          match st.sorted_func_addrs.get? (bisect_right st.sorted_func_addrs start0) with
          | some next_addr => next_addr - start0
          | none => 0x200
        else func0.size
      let func := { func0 with size := est }
      let st := if func0.size = 0 then
          { st with functions := updateFirstSize st.functions func_name est }
        else st
      let code := st.get_function_bytes func
      if code = [] then (st, ["Could not retrieve function code"])
      else
        match get_capstone_instance cap st.has_elf st.arch func.address with
        | none => (st, ["Capstone init failed"])
        | some _ =>
          let insns := decode code (st.normalize func.address)
          if insns.length = 0 then
            (st, ["No instructions disassembled (check architecture/mode)"])
          else
            (st, sortStr ((insnTargets insns).map fun t => st.resolve_call_target t).dedup)

/-! ### JSON cache (save_cache / load_cache)

The cache file is produced by streaming `json.dumps` output for the
collections, plus two raw f-string splices for `elf_path` and
`elf_hash` that bypass `json.dumps` entirely and are written with no
escaping.  It is read back with `json.load`.  Both layers are
modelled: a value layer (`Json`, the decoders below) and a text layer
(`ParserState.save_cache` produces the exact character stream of the
writes, `json_load` parses it), so that a splice containing a quote,
backslash or control character makes the written file unparseable,
exactly as in the program. -/

/-- A JSON value.  Every number written by `save_cache` is an unsigned
integer (ELF addresses and sizes), so numbers carry a `Nat`. -/
inductive Json where
  | jnull : Json
  | jstr : String → Json
  | jnum : Nat → Json
  | jarr : List Json → Json
  | jobj : List (String × Json) → Json
deriving Repr

/-- Key lookup in a parsed JSON object (Python dicts from `json.load`
keep the last duplicate of a key). -/
def jlookup (l : List (String × Json)) (k : String) : Option Json :=
  ((l.filter fun p => p.1 == k).getLast?).map (·.2)

def Param.toJson (p : Param) : Json :=
  .jobj [("name", .jstr p.name), ("type", .jstr p.type)]

/-- `json.dumps(asdict(symbol))`: the dataclass fields in declaration
order. -/
def Symbol.toJson (s : Symbol) : Json :=
  .jobj [("name", .jstr s.name), ("address", .jnum s.address), ("size", .jnum s.size),
         ("symbol_type", .jstr s.symbol_type), ("binding", .jstr s.binding),
         ("section", .jstr s.sectionName)]

/-- The manual `func_dict` of `save_cache`. -/
def Function.toJson (f : Function) : Json :=
  .jobj [("name", .jstr f.name), ("address", .jnum f.address), ("size", .jnum f.size),
         ("parameters", .jarr (f.parameters.map Param.toJson)),
         ("return_type", match f.return_type with | some r => .jstr r | none => .jnull)]

/-- The JSON document `save_cache` encodes, as a value: the shape the
written text parses back to whenever it parses at all.  (The text
itself, with the raw `elf_path`/`elf_hash` splices, is
`ParserState.save_cache` below.) -/
def ParserState.save_cache_doc (st : ParserState) : Json :=
  .jobj [("elf_path", .jstr st.elf_path),
         ("elf_hash", .jstr st.md5_hash),
         ("symbols", .jarr (st.symbols.map Symbol.toJson)),
         ("functions", .jarr (st.functions.map Function.toJson)),
         ("structures", .jobj (st.structures.map fun p =>
             (p.1, Json.jarr (p.2.map Param.toJson)))),
         ("global_vars", .jobj (st.global_vars.map fun p => (p.1, Json.jstr p.2)))]

def decodeStr : Json → Option String
  | .jstr s => some s
  | _ => none

def decodeNat : Json → Option Nat
  | .jnum n => some n
  | _ => none

/-- Decoding of a list, failing as soon as one element fails (the list
comprehension raises out of `load_cache`'s `try`). -/
def decodeList (f : α → Option β) : List α → Option (List β)
  | [] => some []
  | j :: js => do
    let a ← f j
    let rest ← decodeList f js
    pure (a :: rest)

/-- Typed view of one `{'name', 'type'}` dictionary (Python keeps the
raw dict; the typed decoder is the shape all saved parameters have). -/
def decodeParam : Json → Option Param
  | .jobj l => do
    let n ← jlookup l "name" >>= decodeStr
    let t ← jlookup l "type" >>= decodeStr
    if l.all (fun p => p.1 = "name" ∨ p.1 = "type") then pure { name := n, type := t }
    else none
  | _ => none

/-- `Symbol(**s)`: all six constructor fields must be present and no
unknown keyword may appear (an extra key raises a `TypeError`, caught
by `load_cache`). -/
def decodeSymbol : Json → Option Symbol
  | .jobj l => do
    let n ← jlookup l "name" >>= decodeStr
    let a ← jlookup l "address" >>= decodeNat
    let sz ← jlookup l "size" >>= decodeNat
    let ty ← jlookup l "symbol_type" >>= decodeStr
    let b ← jlookup l "binding" >>= decodeStr
    let sec ← jlookup l "section" >>= decodeStr
    if l.all (fun p => p.1 = "name" ∨ p.1 = "address" ∨ p.1 = "size" ∨
        p.1 = "symbol_type" ∨ p.1 = "binding" ∨ p.1 = "section") then
      pure { name := n, address := a, size := sz, symbol_type := ty,
             binding := b, sectionName := sec }
    else none
  | _ => none

/-- `Function(**f)` with the five keys of the saved `func_dict`. -/
def decodeFunction : Json → Option Function
  | .jobj l => do
    let n ← jlookup l "name" >>= decodeStr
    let a ← jlookup l "address" >>= decodeNat
    let sz ← jlookup l "size" >>= decodeNat
    let ps ← match jlookup l "parameters" with
      | some (.jarr js) => decodeList decodeParam js
      | _ => none
    let rt ← match jlookup l "return_type" with
      | some .jnull => some none
      | some (.jstr r) => some (some r)
      | _ => none
    if l.all (fun p => p.1 = "name" ∨ p.1 = "address" ∨ p.1 = "size" ∨
        p.1 = "parameters" ∨ p.1 = "return_type") then
      pure { name := n, address := a, size := sz, parameters := ps, return_type := rt }
    else none
  | _ => none

def decodeStructEntry : String × Json → Option (String × List Param)
  | (k, .jarr js) => (decodeList decodeParam js).map fun ps => (k, ps)
  | _ => none

def decodeVarEntry : String × Json → Option (String × String)
  | (k, .jstr v) => some (k, v)
  | _ => none

/-- `load_cache` restricted to the claimed collections: the decoding of
`data["symbols"]`, `data["functions"]`, `data["structures"]` and
`data["global_vars"]`.  Any failure corresponds to the caught exception
(`load_cache` then returns `False` with nothing restored). -/
def load_cache_collections (j : Json) :
    Option (List Symbol × List Function × List (String × List Param) × List (String × String)) :=
  match j with
  | .jobj l => do
    let syms ← match jlookup l "symbols" with
      | some (.jarr js) => decodeList decodeSymbol js
      | _ => none
    let fns ← match jlookup l "functions" with
      | some (.jarr js) => decodeList decodeFunction js
      | _ => none
    let strs ← match jlookup l "structures" with
      | some (.jobj entries) => decodeList decodeStructEntry entries
      | _ => none
    let gvs ← match jlookup l "global_vars" with
      | some (.jobj entries) => decodeList decodeVarEntry entries
      | _ => none
    pure (syms, fns, strs, gvs)
  | _ => none

/-! ### The cache text layer

`save_cache` hand-assembles the file from f-strings and `json.dumps`
output; `load_cache` starts with `json.load(f)`.  The parser below is
`json.load` restricted to the grammar the writer emits (strings,
unsigned integers, `null`, arrays, objects) together with the failure
modes the raw splices can trigger: an early-closed string literal, an
invalid escape, a raw control character, trailing garbage.  Booleans,
signed or fractional numbers never occur in a written document and are
out of scope. -/

/-- The whitespace characters `json.load` skips between tokens. -/
def jsonWsChar (c : Char) : Bool :=
  c = ' ' || c = '\t' || c = '\n' || c = '\r'

/-- Skip inter-token whitespace. -/
def skipWs (l : List Char) : List Char := l.dropWhile jsonWsChar

/-- Value of one hexadecimal digit. -/
def hexVal (c : Char) : Option Nat :=
  if '0' ≤ c ∧ c ≤ '9' then some (c.toNat - 48)
  else if 'a' ≤ c ∧ c ≤ 'f' then some (c.toNat - 87)
  else if 'A' ≤ c ∧ c ≤ 'F' then some (c.toNat - 55)
  else none

/-- The single-character escapes `json.load` accepts. -/
def escDecode (e : Char) : Option Char :=
  if e = '"' then some '"'
  else if e = '\\' then some '\\'
  else if e = '/' then some '/'
  else if e = 'b' then some (Char.ofNat 8)
  else if e = 'f' then some (Char.ofNat 12)
  else if e = 'n' then some '\n'
  else if e = 'r' then some (Char.ofNat 13)
  else if e = 't' then some '\t'
  else none

/-- The body of a JSON string literal, after the opening quote: the
decoded characters and the remainder after the closing quote.  Escape
handling and the strict-mode rejection of raw control characters
follow `json.load`; an invalid or truncated escape fails. -/
def lexStringBody : List Char → Option (List Char × List Char)
  | [] => none
  | c :: rest =>
    if c = '"' then some ([], rest)
    else if c = '\\' then
      match rest with
      | [] => none
      | e :: rest2 =>
        if e = 'u' then
          match rest2 with
          | h1 :: h2 :: h3 :: h4 :: rest3 =>
            match hexVal h1, hexVal h2, hexVal h3, hexVal h4 with
            | some a, some b, some c2, some d =>
              (lexStringBody rest3).map fun p =>
                (Char.ofNat (4096 * a + 256 * b + 16 * c2 + d) :: p.1, p.2)
            | _, _, _, _ => none
          | _ => none
        else
          match escDecode e with
          | some d => (lexStringBody rest2).map fun p => (d :: p.1, p.2)
          | none => none
    else if c.toNat < 32 then none
    else (lexStringBody rest).map fun p => (c :: p.1, p.2)

/-- Greedy decimal digits with an accumulator (the number grammar of
the cache documents: unsigned integers). -/
def lexNatAux : List Char → Nat → Nat × List Char
  | [], acc => (acc, [])
  | c :: rest, acc =>
    if c.isDigit then lexNatAux rest (10 * acc + (c.toNat - 48)) else (acc, c :: rest)

/-- A decimal integer literal: at least one digit. -/
def lexNat : List Char → Option (Nat × List Char)
  | [] => none
  | c :: rest => if c.isDigit then some (lexNatAux rest (c.toNat - 48)) else none

/-- The recursive core of `json.load`.  `mode = 0` parses one value,
`mode = 1` a nonempty member list up to and including the closing
brace, `mode = 2` a nonempty element list up to and including the
closing bracket; other modes are unused.  The fuel bounds the
recursion depth; `json_load` passes one more than the input length,
which the round-trip lemmas show is sufficient for every document
`save_cache` writes. -/
def parseAny : Nat → Nat → List Char → Option (Json × List Char)
  | 0, _, _ => none
  | fuel + 1, 0, l =>
    match skipWs l with
    | [] => none
    | c :: rest =>
      if c = '"' then
        match lexStringBody rest with
        | some p => some (.jstr (String.mk p.1), p.2)
        | none => none
      else if c = '{' then
        match skipWs rest with
        | '}' :: r2 => some (.jobj [], r2)
        | _ => parseAny fuel 1 rest
      else if c = '[' then
        match skipWs rest with
        | ']' :: r2 => some (.jarr [], r2)
        | _ => parseAny fuel 2 rest
      else if c = 'n' then
        match rest with
        | 'u' :: 'l' :: 'l' :: r2 => some (.jnull, r2)
        | _ => none
      else if c.isDigit then
        match lexNat (c :: rest) with
        | some p => some (.jnum p.1, p.2)
        | none => none
      else none
  | fuel + 1, 1, l =>
    match skipWs l with
    | '"' :: rest =>
      match lexStringBody rest with
      | some (k, r1) =>
        match skipWs r1 with
        | ':' :: r2 =>
          match parseAny fuel 0 r2 with
          | some (v, r3) =>
            match skipWs r3 with
            | ',' :: r4 =>
              match parseAny fuel 1 r4 with
              | some (Json.jobj ms, r5) => some (.jobj ((String.mk k, v) :: ms), r5)
              | _ => none
            | '}' :: r4 => some (.jobj [(String.mk k, v)], r4)
            | _ => none
          | none => none
        | _ => none
      | none => none
    | _ => none
  | fuel + 1, 2, l =>
    match parseAny fuel 0 l with
    | some (v, r1) =>
      match skipWs r1 with
      | ',' :: r2 =>
        match parseAny fuel 2 r2 with
        | some (Json.jarr es, r3) => some (.jarr (v :: es), r3)
        | _ => none
      | ']' :: r2 => some (.jarr [v], r2)
      | _ => none
    | none => none
  | _ + 1, _ + 3, _ => none

/-- `json.load` on the whole file: parse one value, then require only
trailing whitespace (anything else is the `Extra data` error). -/
def json_load (s : String) : Option Json :=
  match parseAny (s.length + 1) 0 s.toList with
  | some (j, r) => if skipWs r = [] then some j else none
  | none => none

/-- `'0'..'9'`, `'a'..'f'` for one hex digit. -/
def hexDigitChar (n : Nat) : Char :=
  Char.ofNat (if n < 10 then n + 48 else n + 87)

/-- The character of one decimal digit. -/
def digitChar (n : Nat) : Char := Char.ofNat (n + 48)

/-- One character of `json.dumps` string output.  `"`, `\` and the
short control escapes become two-character escapes, the remaining
control characters `\u00XX`; every other character is written
verbatim.  (`json.dumps` additionally escapes characters above ASCII;
both renderings decode to the same character, so the model keeps them
verbatim.) -/
def escapeChar (c : Char) : List Char :=
  if c = '"' then ['\\', '"']
  else if c = '\\' then ['\\', '\\']
  else if c = '\n' then ['\\', 'n']
  else if c = '\t' then ['\\', 't']
  else if c.toNat = 13 then ['\\', 'r']
  else if c.toNat = 8 then ['\\', 'b']
  else if c.toNat = 12 then ['\\', 'f']
  else if c.toNat < 32 then
    ['\\', 'u', '0', '0', hexDigitChar (c.toNat / 16), hexDigitChar (c.toNat % 16)]
  else [c]

/-- `json.dumps` escaping of a whole string body. -/
def escString : List Char → List Char
  | [] => []
  | c :: t => escapeChar c ++ escString t

/-- `json.dumps` of a string: quoted and escaped. -/
def strLit (s : String) : List Char := '"' :: (escString s.toList ++ ['"'])

/-- Digit accumulator for `natDigits` (the fuel always suffices, see
`natDigitsAux_spec`). -/
def natDigitsAux : Nat → Nat → List Char → List Char
  | 0, _, acc => acc
  | fuel + 1, n, acc =>
    if n < 10 then digitChar n :: acc
    else natDigitsAux fuel (n / 10) (digitChar (n % 10) :: acc)

/-- Decimal rendering of an unsigned integer (`json.dumps` of an
`int`). -/
def natDigits (n : Nat) : List Char := natDigitsAux (n + 1) n []

/-- `"key": value` -- the `': '` key separator of `json.dumps`, also
the one the hand-written lines use. -/
def memTextW (m : String × List Char) : List Char :=
  strLit m.1 ++ ':' :: ' ' :: m.2

/-- Comma-separated continuation with the given inter-item layout
characters after each comma. -/
def sepBy (ws : List Char) : List (List Char) → List Char
  | [] => []
  | x :: t => ',' :: (ws ++ x ++ sepBy ws t)

/-- A nonempty member sequence in the given inter-member layout. -/
def membersTextW (ws : List Char) : List (String × List Char) → List Char
  | [] => []
  | m :: t => memTextW m ++ sepBy ws (t.map memTextW)

/-- `json.dumps` of a dict: `{}`, or `{"k": v, "k2": v2}` on one
line. -/
def printObjW : List (String × List Char) → List Char
  | [] => ['{', '}']
  | m :: t => '{' :: (membersTextW [' '] (m :: t) ++ ['}'])

/-- `json.dumps` of a list: `[]`, or `[v, v2]` on one line. -/
def printArrW : List (List Char) → List Char
  | [] => ['[', ']']
  | v :: t => '[' :: (v ++ sepBy [' '] t ++ [']'])

/-- `json.dumps` of one `{'name', 'type'}` parameter dict. -/
def printParam (p : Param) : List Char :=
  printObjW [("name", strLit p.name), ("type", strLit p.type)]

/-- `json.dumps` of a parameter list. -/
def printParams (ps : List Param) : List Char := printArrW (ps.map printParam)

/-- `json.dumps(asdict(s))`: one symbol line. -/
def printSymbol (s : Symbol) : List Char :=
  printObjW [("name", strLit s.name), ("address", natDigits s.address),
             ("size", natDigits s.size), ("symbol_type", strLit s.symbol_type),
             ("binding", strLit s.binding), ("section", strLit s.sectionName)]

/-- `json.dumps(func_dict)`: one function line. -/
def printFunction (f : Function) : List Char :=
  printObjW [("name", strLit f.name), ("address", natDigits f.address),
             ("size", natDigits f.size), ("parameters", printParams f.parameters),
             ("return_type", match f.return_type with
               | some r => strLit r
               | none => ['n', 'u', 'l', 'l'])]

/-- The body lines of the streamed `symbols`/`functions` arrays: four
spaces of indent, the dumped object, a comma on every line but the
last, a newline. -/
def cacheLines : List (List Char) → List Char
  | [] => []
  | [x] => ' ' :: ' ' :: ' ' :: ' ' :: (x ++ ['\n'])
  | x :: y :: t => ' ' :: ' ' :: ' ' :: ' ' :: (x ++ ',' :: '\n' :: cacheLines (y :: t))

/-- The exact character stream `save_cache` writes (elf_parser.py
174-202).  The `elf_path` and `elf_hash` member values are raw
f-string splices: `str(self.elf_path)` and `self.md5_hash` appear
verbatim between two quotes, with no JSON escaping -- only the four
collections go through `json.dumps`.  Flattened, the pieces reproduce
the writes line for line: first `'{'` and a newline, then on its own
line `  "elf_path": "PATH",` then `  "elf_hash": "HASH",` then
`  "symbols": [` with one dumped symbol per four-space-indented line
(a trailing comma on every line but the last), `  ],`, the same for
functions, then `  "structures": DUMP,` and `  "global_vars": DUMP`
and the closing `}` with no trailing newline. -/
def ParserState.save_cache (st : ParserState) : String :=
  String.mk ('{' :: '\n' :: ' ' :: ' ' ::
    (membersTextW ['\n', ' ', ' ']
      [("elf_path", '"' :: (st.elf_path.toList ++ ['"'])),
       ("elf_hash", '"' :: (st.md5_hash.toList ++ ['"'])),
       ("symbols", '[' :: '\n' :: (cacheLines (st.symbols.map printSymbol) ++
          [' ', ' ', ']'])),
       ("functions", '[' :: '\n' :: (cacheLines (st.functions.map printFunction) ++
          [' ', ' ', ']'])),
       ("structures", printObjW (st.structures.map fun p => (p.1, printParams p.2))),
       ("global_vars", printObjW (st.global_vars.map fun p => (p.1, strLit p.2)))] ++
     '\n' :: '}' :: []))

/-- A character the raw f-string splice leaves meaningful inside a
JSON string literal: not a quote (which closes the literal early), not
a backslash (which starts an escape), not a control character (which
strict `json.load` rejects). -/
def jsonStrSafeChar (c : Char) : Bool :=
  !(c = '"' || c = '\\' || decide (c.toNat < 32))

/-- A string the raw splice embeds soundly. -/
def jsonStrSafe (s : String) : Bool := s.toList.all jsonStrSafeChar

/-- `load_cache` down to the four claimed collections: `json.load` on
the file text, then the decoding of the symbol, function, structure
and global-variable entries.  A parse failure is the caught exception
path: `load_cache` returns `False` and restores nothing. -/
def load_cache_from_text (s : String) :
    Option (List Symbol × List Function × List (String × List Param) ×
      List (String × String)) :=
  (json_load s).bind load_cache_collections

/-! ### Symbol matcher (Logic_Symbol_Matcher.py)

`fuzz.token_sort_ratio` lowercases, replaces every non-word character
(word characters are alphanumerics and the underscore, the regex `\W`)
with a space, splits on whitespace, sorts the tokens and compares the
rejoined strings with the underlying sequence-similarity ratio.  The
low-level ratio of the external fuzzywuzzy library is kept abstract as
a `score` parameter; everything above it is modelled. -/

/-- A regex word character: `[a-zA-Z0-9_]`. -/
def isWordChar (c : Char) : Bool :=
  c.isAlphanum || c == '_'

/-- fuzzywuzzy `full_process`: non-word characters to spaces,
lowercase, strip. -/
def full_process (s : String) : String :=
  pyTrim (pyLower (String.mk (s.toList.map fun c => if isWordChar c then c else ' ')))

/-- `s.split()` over an already processed string: whitespace-separated
tokens with no empty entries (the accumulator holds the current token
reversed). -/
def splitWsAux : List Char → List Char → List String
  | [], cur => if cur.isEmpty then [] else [String.mk cur.reverse]
  | c :: rest, cur =>
    if c = ' ' then
      if cur.isEmpty then splitWsAux rest []
      else String.mk cur.reverse :: splitWsAux rest []
    else splitWsAux rest (c :: cur)

/-- The whitespace-split token list of a processed string. -/
def procTokens (s : String) : List String :=
  splitWsAux (full_process s).toList []

/-- The token-sorted form: tokens sorted and rejoined with single
spaces. -/
def tokenSortedForm (s : String) : String :=
  String.intercalate " " (List.insertionSort pyStrLe (procTokens s))

/-- `fuzz.token_sort_ratio` over an abstract base similarity ratio. -/
def tokenSortScore (score : String → String → Nat) (a b : String) : Nat :=
  score (tokenSortedForm a) (tokenSortedForm b)

/-- The matcher's `search_pool`: function names then global-variable
names. -/
def search_pool (st : ParserState) : List String :=
  st.functions.map (·.name) ++ st.global_vars.map (·.1)

/-- `process.extractOne`: the choice with the highest score; Python's
`max` keeps the first of several maximal entries. -/
def extractOne (scorer : String → String → Nat) (query : String)
    (choices : List String) : Option (String × Nat) :=
  match choices.map fun c => (c, scorer query c) with
  | [] => none
  | x :: xs => some (xs.foldl (fun best y => if y.2 > best.2 then y else best) x)

/-- `SymbolMatcher.find_best_match` (the Python default threshold is
70). -/
def find_best_match (score : String → String → Nat) (st : ParserState)
    (target_name : String) (threshold : Nat) : Option String × Nat :=
  if target_name = "" ∨ search_pool st = [] then (none, 0)
  else
    match extractOne (tokenSortScore score) target_name (search_pool st) with
    | none => (none, 0)
    | some (m, sc) => if sc ≥ threshold then (some m, sc) else (none, 0)

/-! ### Init-column reconciliation state machine
(Logic_Architecture_Table.refresh_init_column_state and
Logic_Column_Types.InitColumn.on_change, with the per-item Qt data
roles of Logic_User_Interaction). -/

/-- The state of one Init cell: displayed text, the
`USER_CHANGE_ROLE` override flag, the `LAST_FUNC_ROLE` binding memo and
the `IS_PURPLE_ROLE` conflict flag. -/
structure CellState where
  text : String
  userChange : Bool
  lastFunc : Option String
  purple : Bool
deriving DecidableEq, Repr

/-- `"init" in current_func_name.lower()`. -/
def funcIsInit (name : String) : Bool :=
  occursIn "init" (pyLower name)

/-- One pass of `refresh_init_column_state` over a single cell, given
the row's current matched function name and review status.  Purple is
only ever set here (`mark_purple` when `should_be_purple`); it is never
cleared by a refresh. -/
def refresh_init_cell (reviewStatus : Option String) (currentFunc : String)
    (c : CellState) : CellState :=
  if currentFunc = "" ∧ ¬ c.userChange then
    { c with text := "" }
  else
    let funcChanged := c.lastFunc ≠ none ∧ c.lastFunc ≠ some currentFunc
    let autoVal := if funcIsInit currentFunc then "1" else "0"
    let newVal :=
      if c.userChange then (if funcChanged then autoVal else c.text)
      else autoVal
    let shouldPurple :=
      if c.userChange then (if funcChanged then true else c.purple)
      else if reviewStatus = some "Reviewed" then (if funcChanged then true else c.purple)
      else false
    { text := newVal,
      userChange := c.userChange,
      lastFunc := some currentFunc,
      purple := c.purple || shouldPurple }

/-- `InitColumn.on_change`: the user edited the cell, whose item now
holds `typed` (the handler receives the stripped text).  Purple is
cleared on any interaction; the override flag follows the comparison of
the typed value with the auto-computed one. -/
def init_on_change (currentFunc typed : String) (c0 : CellState) : CellState :=
  let c := { c0 with text := typed, purple := false }
  let expected := if funcIsInit currentFunc then "1" else "0"
  if pyTrim typed = "" then
    { c with userChange := false,
             text := if currentFunc = "" then "" else expected }
  else if pyTrim typed = expected then { c with userChange := false }
  else { c with userChange := true }

/-! ### DWARF structures and the typedef chain walk
(extract_structures, lines 405-432, plus `_get_type_name`). -/

/-- A member/inheritance child of a DWARF aggregate DIE as the typedef
path consumes it: tag, optional `DW_AT_name`, optional resolved
`DW_AT_type` reference. -/
structure DIEChild where
  ctag : String
  cname : Option String
  ctypeRef : Option Nat
deriving DecidableEq, Repr

/-- A debugging information entry, keyed by its section offset.
`typeRef` is the target offset of the `DW_AT_type` attribute when
present, `declaration` the value of the `DW_AT_declaration` flag. -/
structure DIE where
  offset : Nat
  tag : String
  dname : Option String
  typeRef : Option Nat
  declaration : Bool
  children : List DIEChild
deriving DecidableEq, Repr

/-- `get_DIE_from_refaddr`: DIE lookup by offset (may fail on
malformed data). -/
def get_die (env : List DIE) (off : Nat) : Option DIE :=
  env.find? fun d => d.offset == off

/-- `_get_die_from_attribute` for an already offset-adjusted reference:
follow the optional offset into the DIE table. -/
def derefType (env : List DIE) (r : Option Nat) : Option DIE :=
  r.bind (get_die env)

/-- `_get_type_name`.  The Python original recurses without a guard;
a reference cycle ends in a `RecursionError` that the bare `except`
maps to "unknown" — `fuel` models the interpreter's recursion limit. -/
def get_type_name (env : List DIE) : Nat → Option DIE → String
  | 0, _ => "unknown"
  | _, none => "unknown"
  | fuel + 1, some t =>
    if t.tag = "DW_TAG_base_type" then t.dname.getD "void"
    else if t.tag = "DW_TAG_typedef" then t.dname.getD "typedef"
    else if t.tag = "DW_TAG_structure_type" then
      match t.dname with
      | some n => "struct " ++ n
      | none => "struct <anon>"
    else if t.tag = "DW_TAG_pointer_type" then
      match derefType env t.typeRef with
      | some inner => get_type_name env fuel (some inner) ++ "*"
      | none => "void*"
    else if t.tag = "DW_TAG_const_type" then
      match derefType env t.typeRef with
      | some inner => "const " ++ get_type_name env fuel (some inner)
      | none => "const void"
    else if t.tag = "DW_TAG_volatile_type" then
      match derefType env t.typeRef with
      | some inner => "volatile " ++ get_type_name env fuel (some inner)
      | none => "volatile void"
    else if t.tag = "DW_TAG_array_type" then
      match derefType env t.typeRef with
      | some inner => get_type_name env fuel (some inner) ++ "[]"
      | none => "array"
    else t.dname.getD "unknown"

/-- The tags the typedef chain steps through. -/
def cvtTags : List String :=
  ["DW_TAG_const_type", "DW_TAG_volatile_type", "DW_TAG_typedef"]

/-- The aggregate tags a typedef may alias. -/
def aggregateTags : List String :=
  ["DW_TAG_structure_type", "DW_TAG_class_type", "DW_TAG_union_type"]

/-- The `while t_die and t_die.offset not in seen` loop of the typedef
pass: step through const/volatile/typedef indirections, stopping at a
missing DIE, a revisited offset, or any other tag.  The second
component records that the walk finished before the fuel ran out. -/
def chainWalk (env : List DIE) : Nat → List Nat → Option DIE → Option DIE × Bool
  | 0, _, t => (t, false)
  | _ + 1, _, none => (none, true)
  | fuel + 1, seen, some t =>
    if t.offset ∈ seen then (some t, true)
    else if t.tag ∈ cvtTags then
      chainWalk env fuel (t.offset :: seen) (derefType env t.typeRef)
    else (some t, true)

/-- Fuel that always suffices for `chainWalk`: one more than the number
of distinct DIE offsets. -/
def envFuel (env : List DIE) : Nat :=
  ((env.map fun d => d.offset).dedup).length + 1

/-- Python dict assignment `d[k] = v` on an association list: overwrite
in place, or append a new key. -/
def assocSet (l : List (String × α)) (k : String) (v : α) : List (String × α) :=
  match l with
  | [] => [(k, v)]
  | p :: rest => if p.1 == k then (k, v) :: rest else p :: assocSet rest k v

/-- `k in d` / `d[k]` for the structures dict. -/
def assocFind (l : List (String × α)) (k : String) : Option α :=
  (l.find? fun p => p.1 == k).map (·.2)

/-- The member/inheritance field list collected from an aggregate DIE
(used both for named structures and for typedef targets). -/
def buildFields (env : List DIE) (tnFuel : Nat) (t : DIE) : List Param :=
  t.children.foldr
    (fun ch acc =>
      if ch.ctag = "DW_TAG_member" ∨ ch.ctag = "DW_TAG_field" then
        { name := ch.cname.getD "<anonymous>",
          type := match derefType env ch.ctypeRef with
                  | some td => get_type_name env tnFuel (some td)
                  | none => "unknown" } :: acc
      else if ch.ctag = "DW_TAG_inheritance" then
        match derefType env ch.ctypeRef with
        | some td => { name := "<base>", type := get_type_name env tnFuel (some td) } :: acc
        | none => acc
      else acc)
    []

/-- The recursion-limit stand-in handed to `_get_type_name` while
fields are built (its exact value never changes a claim here). -/
def typeNameFuel : Nat := 1000

/-- The per-typedef body of `extract_structures` (lines 405-432):
resolve the `DW_AT_type` chain through const/volatile/typedef
indirections with the visited-offset guard, then register the aliased
aggregate's field list (or an alias to a declared-only target). -/
def processTypedef (env : List DIE) (structures : List (String × List Param))
    (die : DIE) : List (String × List Param) :=
  match die.dname with
  | none => structures
  | some td_name =>
    let tfin := (chainWalk env (envFuel env) [] (derefType env die.typeRef)).1
    match tfin with
    | none => structures
    | some t =>
      if t.tag ∈ aggregateTags then
        if t.declaration then
          match t.dname with
          | some target =>
            match assocFind structures target with
            | some fl => assocSet structures td_name fl
            | none => structures
          | none => structures
        else
          let fields := buildFields env typeNameFuel t
          if assocFind structures td_name = none ∨ fields ≠ [] then
            assocSet structures td_name fields
          else structures
      else structures

/-! ### Facts about `bisect_right` on sorted key lists -/

lemma mem_takeWhile_and {p : Nat → Bool} :
    ∀ {l : List Nat} {a : Nat}, a ∈ l.takeWhile p → a ∈ l ∧ p a = true := by
  intro l
  induction l with
  | nil => intro a h; simp [List.takeWhile] at h
  | cons b t ih =>
    intro a h
    rw [List.takeWhile_cons] at h
    by_cases hb : p b
    · simp only [hb, if_true, List.mem_cons] at h
      rcases h with rfl | h
      · exact ⟨List.mem_cons_self _ _, hb⟩
      · rcases ih h with ⟨h1, h2⟩
        exact ⟨List.mem_cons_of_mem _ h1, h2⟩
    · simp [hb] at h

lemma bisect_right_zero_lt {l : List Nat} {x : Nat}
    (hs : List.Sorted (· ≤ ·) l) (h : bisect_right l x = 0) :
    ∀ k ∈ l, x < k := by
  intro k hk
  cases l with
  | nil => simp at hk
  | cons a t =>
    rw [List.sorted_cons] at hs
    unfold bisect_right at h
    rw [List.takeWhile_cons] at h
    by_cases hax : a ≤ x
    · simp [hax] at h
    · push_neg at hax
      rcases List.mem_cons.mp hk with rfl | hk'
      · exact hax
      · exact lt_of_lt_of_le hax (hs.1 _ hk')

lemma exists_le_of_bisect_right_pos {l : List Nat} {x : Nat}
    (h : bisect_right l x ≠ 0) : ∃ b ∈ l, b ≤ x := by
  unfold bisect_right at h
  have hne : l.takeWhile (fun k => decide (k ≤ x)) ≠ [] := by
    intro hnil; rw [hnil] at h; exact h rfl
  obtain ⟨b, hb⟩ := List.exists_mem_of_ne_nil _ hne
  rcases mem_takeWhile_and hb with ⟨hmem, hp⟩
  exact ⟨b, hmem, of_decide_eq_true hp⟩

/-- On a sorted list, the entry just before the `bisect_right`
insertion point is exactly the greatest element `≤ x`. -/
lemma bisect_right_max :
    ∀ {l : List Nat}, List.Sorted (· ≤ ·) l → ∀ {x k : Nat},
      ((0 < bisect_right l x ∧ l.get? (bisect_right l x - 1) = some k) ↔
        (k ∈ l ∧ k ≤ x ∧ ∀ k' ∈ l, k' ≤ x → k' ≤ k)) := by
  intro l
  induction l with
  | nil => intro _ x k; simp [bisect_right, List.takeWhile]
  | cons a t ih =>
    intro hs x k
    rw [List.sorted_cons] at hs
    have iht := @ih hs.2
    show (0 < bisect_right (a :: t) x ∧ _) ↔ _
    unfold bisect_right
    rw [List.takeWhile_cons]
    by_cases hax : a ≤ x
    · simp only [hax, decide_True, if_true, List.length_cons]
      by_cases hm : bisect_right t x = 0
      · unfold bisect_right at hm
        rw [hm]
        simp only [Nat.add_sub_cancel, List.get?_cons_zero, Nat.zero_lt_succ, true_and]
        constructor
        · intro h
          have hk : k = a := by injection h; omega
          subst hk
          refine ⟨List.mem_cons_self _ _, hax, ?_⟩
          intro k' hk' hk'x
          rcases List.mem_cons.mp hk' with rfl | hk't
          · exact le_refl _
          · exact absurd hk'x (not_le_of_lt (bisect_right_zero_lt hs.2 hm k' hk't))
        · rintro ⟨hkmem, hkx, -⟩
          rcases List.mem_cons.mp hkmem with rfl | hkt
          · rfl
          · exact absurd hkx (not_le_of_lt (bisect_right_zero_lt hs.2 hm k hkt))
      · obtain ⟨j, hj⟩ : ∃ j, bisect_right t x = j + 1 :=
          ⟨bisect_right t x - 1, (Nat.succ_pred_eq_of_pos (Nat.pos_of_ne_zero hm)).symm⟩
        have iht' := @iht x k
        rw [hj] at iht'
        simp only [Nat.add_sub_cancel, Nat.zero_lt_succ, true_and] at iht'
        unfold bisect_right at hj
        rw [hj]
        simp only [Nat.add_sub_cancel, List.get?_cons_succ, Nat.zero_lt_succ, true_and]
        rw [iht']
        obtain ⟨b, hbt, hbx⟩ := exists_le_of_bisect_right_pos (l := t) (x := x) (by omega)
        constructor
        · rintro ⟨hkt, hkx, hmax⟩
          refine ⟨List.mem_cons_of_mem _ hkt, hkx, ?_⟩
          intro k' hk' hk'x
          rcases List.mem_cons.mp hk' with rfl | hk't
          · exact hs.1 _ hkt
          · exact hmax k' hk't hk'x
        · rintro ⟨hkmem, hkx, hmax⟩
          have hkt : k ∈ t := by
            rcases List.mem_cons.mp hkmem with rfl | hkt
            · have hab : k ≤ b := hs.1 _ hbt
              have hba : b ≤ k := hmax b (List.mem_cons_of_mem _ hbt) hbx
              have : k = b := le_antisymm hab hba
              rw [this]; exact hbt
            · exact hkt
          exact ⟨hkt, hkx, fun k' hk't hk'x => hmax k' (List.mem_cons_of_mem _ hk't) hk'x⟩
    · simp only [hax, decide_False, if_false, List.length_nil]
      push_neg at hax
      constructor
      · rintro ⟨h0, -⟩; exact absurd h0 (lt_irrefl 0)
      · rintro ⟨hkmem, hkx, -⟩
        rcases List.mem_cons.mp hkmem with rfl | hkt
        · exact absurd hkx (not_le_of_lt hax)
        · exact absurd (le_trans (hs.1 _ hkt) hkx) (not_le_of_lt hax)

/-- On a sorted list, the entry at the `bisect_right` insertion point is
exactly the least element `> x`. -/
lemma bisect_right_next :
    ∀ {l : List Nat}, List.Sorted (· ≤ ·) l → ∀ {x k : Nat},
      (l.get? (bisect_right l x) = some k ↔
        (k ∈ l ∧ x < k ∧ ∀ k' ∈ l, x < k' → k ≤ k')) := by
  intro l
  induction l with
  | nil => intro _ x k; simp [bisect_right, List.takeWhile]
  | cons a t ih =>
    intro hs x k
    rw [List.sorted_cons] at hs
    have iht := @ih hs.2
    show (a :: t).get? (bisect_right (a :: t) x) = some k ↔ _
    unfold bisect_right
    rw [List.takeWhile_cons]
    by_cases hax : a ≤ x
    · simp only [hax, decide_True, if_true, List.length_cons, List.get?_cons_succ]
      have hgoal : t.get? (List.takeWhile (fun k => decide (k ≤ x)) t).length = some k ↔
          (k ∈ t ∧ x < k ∧ ∀ k' ∈ t, x < k' → k ≤ k') := @iht x k
      rw [hgoal]
      constructor
      · rintro ⟨hkt, hxk, hmin⟩
        refine ⟨List.mem_cons_of_mem _ hkt, hxk, ?_⟩
        intro k' hk' hxk'
        rcases List.mem_cons.mp hk' with rfl | hk't
        · exact absurd hax (not_le_of_lt hxk')
        · exact hmin k' hk't hxk'
      · rintro ⟨hkmem, hxk, hmin⟩
        have hkt : k ∈ t := by
          rcases List.mem_cons.mp hkmem with rfl | hkt
          · exact absurd hax (not_le_of_lt hxk)
          · exact hkt
        exact ⟨hkt, hxk, fun k' hk't hxk' => hmin k' (List.mem_cons_of_mem _ hk't) hxk'⟩
    · simp only [hax, decide_False, Bool.false_eq_true, if_false, List.length_nil,
        List.get?_cons_zero]
      push_neg at hax
      constructor
      · intro h
        have hk : k = a := by injection h; omega
        subst hk
        refine ⟨List.mem_cons_self _ _, hax, ?_⟩
        intro k' hk' _
        rcases List.mem_cons.mp hk' with rfl | hk't
        · exact le_refl _
        · exact hs.1 _ hk't
      · rintro ⟨hkmem, hxk, hmin⟩
        have hka : k ≤ a := hmin a (List.mem_cons_self _ _) hax
        rcases List.mem_cons.mp hkmem with rfl | hkt
        · rfl
        · exact congrArg some (le_antisymm (hs.1 _ hkt) hka)

/-- Without any next entry, every list element is `≤ x`. -/
lemma bisect_right_none :
    ∀ {l : List Nat} {x : Nat},
      (l.get? (bisect_right l x) = none ↔ ∀ k ∈ l, k ≤ x) := by
  intro l
  induction l with
  | nil => intro x; simp [bisect_right, List.takeWhile]
  | cons a t ih =>
    intro x
    show (a :: t).get? (bisect_right (a :: t) x) = none ↔ _
    unfold bisect_right
    rw [List.takeWhile_cons]
    by_cases hax : a ≤ x
    · simp only [hax, decide_True, if_true, List.length_cons, List.get?_cons_succ]
      have hgoal : t.get? (List.takeWhile (fun k => decide (k ≤ x)) t).length = none ↔
          ∀ k ∈ t, k ≤ x := @ih x
      rw [hgoal]
      simp [hax]
    · simp only [hax, decide_False, Bool.false_eq_true, if_false, List.length_nil,
        List.get?_cons_zero]
      simp only [List.mem_cons]
      constructor
      · intro h; exact absurd h (by simp)
      · intro h; exact absurd (h a (Or.inl rfl)) hax

/-! ### The address index key list -/

lemma sorted_buildAddrKeys (st : ParserState) :
    List.Sorted (· ≤ ·) (buildAddrKeys st) :=
  List.sorted_insertionSort _ _

lemma mem_buildAddrKeys {st : ParserState} {k : Nat} :
    k ∈ buildAddrKeys st ↔ ∃ f ∈ st.functions, st.normalize f.address = k := by
  unfold buildAddrKeys sortNat
  rw [(List.perm_insertionSort _ _).mem_iff, List.mem_dedup, List.mem_map]

lemma buildAddrKeys_eq_nil {st : ParserState} :
    buildAddrKeys st = [] ↔ st.functions = [] := by
  unfold buildAddrKeys sortNat
  constructor
  · intro h
    have hp := (List.perm_insertionSort (· ≤ ·)
      ((st.functions.map fun f => st.normalize f.address).dedup)).symm
    rw [h] at hp
    have h2 := hp.eq_nil
    rw [List.dedup_eq_nil, List.map_eq_nil_iff] at h2
    exact h2
  · intro h; rw [h]; rfl

lemma func_addr_lookup_spec {st : ParserState} {k : Nat} {F : Function}
    (h : st.func_addr_lookup k = some F) :
    F ∈ st.functions ∧ st.normalize F.address = k := by
  unfold ParserState.func_addr_lookup at h
  have hmem := List.mem_of_mem_getLast? h
  rw [List.mem_filter] at hmem
  exact ⟨hmem.1, by simpa using hmem.2⟩

lemma func_addr_lookup_isSome_of_mem {st : ParserState} {k : Nat}
    (h : k ∈ buildAddrKeys st) : ∃ F, st.func_addr_lookup k = some F := by
  rw [mem_buildAddrKeys] at h
  obtain ⟨f, hf, hk⟩ := h
  unfold ParserState.func_addr_lookup
  have hne : (st.functions.filter fun f => st.normalize f.address == k) ≠ [] := by
    intro hnil
    rw [List.filter_eq_nil_iff] at hnil
    exact hnil f hf (by simpa using hk)
  obtain ⟨F, hF⟩ := Option.isSome_iff_exists.mp (List.getLast?_isSome.mpr hne)
  exact ⟨F, hF⟩

lemma build_map_of_indexBuilt {st : ParserState} (hb : st.indexBuilt) :
    (if st.sorted_func_addrs = [] then st.build_function_address_map else st) = st := by
  by_cases h : st.sorted_func_addrs = []
  · rw [if_pos h]
    unfold ParserState.build_function_address_map
    have hf : st.functions = [] := buildAddrKeys_eq_nil.mp (by rw [← hb]; exact h)
    by_cases hsy : st.symbols = []
    · rw [if_pos ⟨hf, hsy⟩]
    · rw [if_neg (fun hc => hsy hc.2)]
      have hkeys : buildAddrKeys st = st.sorted_func_addrs := hb.symm
      rw [hkeys]
  · rw [if_neg h]

lemma containing_fst {st : ParserState} (hb : st.indexBuilt) (a : Nat) :
    (st.get_function_containing_address a).1 = st := by
  simp only [ParserState.get_function_containing_address]
  rw [build_map_of_indexBuilt hb]
  repeat' split
  all_goals rfl

/-- Characterization of the containing-function query on a built index:
a hit is the function stored at the greatest key `≤ normalize a`, and
only when the query falls inside its `[address, address+size)` window
with a positive size. -/
lemma containing_snd_iff {st : ParserState} (hb : st.indexBuilt) (a : Nat) (F : Function) :
    (st.get_function_containing_address a).2 = some F ↔
      ∃ k, k ∈ st.sorted_func_addrs ∧ k ≤ st.normalize a ∧
        (∀ k' ∈ st.sorted_func_addrs, k' ≤ st.normalize a → k' ≤ k) ∧
        st.func_addr_lookup k = some F ∧ 0 < F.size ∧
        F.address ≤ st.normalize a ∧ st.normalize a < F.address + F.size := by
  have hsorted : List.Sorted (· ≤ ·) st.sorted_func_addrs := by
    rw [hb]; exact sorted_buildAddrKeys st
  simp only [ParserState.get_function_containing_address]
  rw [build_map_of_indexBuilt hb]
  constructor
  · intro h
    by_cases h0 : bisect_right st.sorted_func_addrs (st.normalize a) = 0
    · rw [if_pos h0] at h; simp at h
    · rw [if_neg h0] at h
      cases hik : st.sorted_func_addrs.get?
          (bisect_right st.sorted_func_addrs (st.normalize a) - 1) with
      | none => simp only [hik] at h; exact absurd h (by simp)
      | some k =>
        simp only [hik] at h
        cases hlk : st.func_addr_lookup k with
        | none => simp only [hlk] at h; exact absurd h (by simp)
        | some cand =>
          simp only [hlk] at h
          by_cases hcond : cand.size > 0 ∧ cand.address ≤ st.normalize a ∧
              st.normalize a < cand.address + cand.size
          · rw [if_pos hcond] at h
            simp only [Prod.snd, Option.some.injEq] at h
            subst h
            have hmax := (bisect_right_max hsorted
              (x := st.normalize a) (k := k)).mp ⟨Nat.pos_of_ne_zero h0, hik⟩
            exact ⟨k, hmax.1, hmax.2.1, hmax.2.2, hlk, hcond.1, hcond.2.1, hcond.2.2⟩
          · rw [if_neg hcond] at h; simp at h
  · rintro ⟨k, hkmem, hkle, hkmax, hlk, hsz, hle, hlt⟩
    obtain ⟨h0, hget⟩ := (bisect_right_max hsorted
      (x := st.normalize a) (k := k)).mpr ⟨hkmem, hkle, hkmax⟩
    rw [if_neg (Nat.pos_iff_ne_zero.mp h0)]
    simp only [hget, hlk]
    rw [if_pos ⟨hsz, hle, hlt⟩]

/-- C1.  The claim as frozen is false at a Thumb-mode start address: the
index key is the normalized start, but the window check uses the raw
`F.address`, so on ARM a query equal to the (odd) start address of a
Thumb function returns nothing.  Concretely, for an ARM parser holding
one function `f` at `0x1001` of size 4 with a built index, the
containing query at the function's own start address `0x1001` returns
`none` although the claim's boundary statement requires `f`. -/
def stC1arm : ParserState :=
  { elf_syms := [], symbols := [],
    functions := [{ name := "f", address := 0x1001, size := 4,
                    parameters := [], return_type := none }],
    structures := [], global_vars := [],
    sorted_func_addrs := [0x1000],
    arch := "ARM", has_elf := true, sections := [],
    elf_path := "p.elf", md5_hash := "h" }

/-- C1 counterexample: the boundary part of the claim ("a query equal
to the start is in range") fails on the code for a Thumb-flagged ARM
function start; the query at the exact start address `0x1001` of the
indexed, positive-size function `f` yields `none`. -/
theorem claim_C1_counterexample :
    stC1arm.indexBuilt ∧
    stC1arm.functions = [{ name := "f", address := 0x1001, size := 4,
                           parameters := [], return_type := none }] ∧
    (stC1arm.get_function_containing_address 0x1001).2 = none := by
  refine ⟨?_, rfl, rfl⟩
  show stC1arm.sorted_func_addrs = buildAddrKeys stC1arm
  rfl

/-- C1 (amended): on a built index, `get_function_containing_address`
returns `F` iff `F` is the function stored at the greatest normalized
start key `≤ normalize(a)` and `F.address ≤ normalize(a) <
F.address + F.size` with `F.size > 0`; a zero-size function is never
returned, and the boundaries are exact for addresses that normalization
leaves unchanged: a query at the start of an indexed function whose
address carries no mode bit returns that function, and a query at
`start + size` never returns the function when that address is fixed by
normalization. -/
theorem claim_C1 (st : ParserState) (hb : st.indexBuilt) :
    (∀ a F, (st.get_function_containing_address a).2 = some F ↔
      ∃ k, k ∈ st.sorted_func_addrs ∧ k ≤ st.normalize a ∧
        (∀ k' ∈ st.sorted_func_addrs, k' ≤ st.normalize a → k' ≤ k) ∧
        st.func_addr_lookup k = some F ∧ 0 < F.size ∧
        F.address ≤ st.normalize a ∧ st.normalize a < F.address + F.size) ∧
    (∀ a F, (st.get_function_containing_address a).2 = some F → 0 < F.size) ∧
    (∀ F, st.func_addr_lookup (st.normalize F.address) = some F →
      st.normalize F.address = F.address → 0 < F.size →
      (st.get_function_containing_address F.address).2 = some F) ∧
    (∀ a F, st.normalize a = a → a = F.address + F.size →
      (st.get_function_containing_address a).2 ≠ some F) := by
  refine ⟨fun a F => containing_snd_iff hb a F, ?_, ?_, ?_⟩
  · intro a F h
    obtain ⟨k, -, -, -, -, hsz, -, -⟩ := (containing_snd_iff hb a F).mp h
    exact hsz
  · intro F hlk hfix hsz
    have hkmem : st.normalize F.address ∈ st.sorted_func_addrs := by
      rw [hb, mem_buildAddrKeys]
      exact ⟨F, (func_addr_lookup_spec hlk).1, rfl⟩
    refine (containing_snd_iff hb F.address F).mpr
      ⟨st.normalize F.address, hkmem, le_refl _, ?_, hlk, hsz, ?_, ?_⟩
    · intro k' _ hk'; exact hk'
    · rw [hfix]
    · rw [hfix]; omega
  · intro a F hfix hend h
    obtain ⟨k, -, -, -, -, -, -, hlt⟩ := (containing_snd_iff hb a F).mp h
    rw [hfix, hend] at hlt
    exact lt_irrefl _ hlt

/-- Concrete non-ARM state used as the C1/C3/C10 witness playground:
two functions, one of size 4 at `0x1000` and one of size 0 at
`0x1040`, with the index built. -/
def stX : ParserState :=
  { elf_syms := [{ name := "f", address := 0x1000, size := 4, symbol_type := "STT_FUNC",
                   binding := "STB_GLOBAL", sectionName := ".text" }],
    symbols := [{ name := "f", address := 0x1000, size := 4, symbol_type := "STT_FUNC",
                  binding := "STB_GLOBAL", sectionName := ".text" }],
    functions := [{ name := "f", address := 0x1000, size := 4,
                    parameters := [], return_type := none },
                  { name := "g", address := 0x1040, size := 0,
                    parameters := [], return_type := none }],
    structures := [], global_vars := [],
    sorted_func_addrs := [0x1000, 0x1040],
    arch := "x64", has_elf := true, sections := [],
    elf_path := "p.elf", md5_hash := "h" }

/-- The first function of `stX`. -/
def fX : Function :=
  { name := "f", address := 0x1000, size := 4, parameters := [], return_type := none }

/-- C1 witness: the amended theorem applied at `stX`, start-boundary
query `0x1000` hits `f` and end-boundary query `0x1004` does not. -/
theorem claim_C1_witness :
    (stX.get_function_containing_address 0x1000).2 = some fX ∧
    (stX.get_function_containing_address 0x1004).2 ≠ some fX := by
  have h := claim_C1 stX (by show stX.sorted_func_addrs = buildAddrKeys stX; rfl)
  constructor
  · exact h.2.2.1 fX (by rfl) (by rfl) (by norm_num [fX])
  · exact h.2.2.2 0x1004 fX (by rfl) (by norm_num [fX])

/-! ### Frame effects of the query operations -/

lemma search_function_fst {st : ParserState} (hf : st.functions ≠ []) (q : String)
    (e : Bool) : (st.search_function q e).1 = st := by
  simp only [ParserState.search_function]
  rw [if_neg hf]
  split <;> rfl

lemma get_symbol_by_address_fst {st : ParserState} (hs : st.symbols ≠ []) (a : Nat) :
    (st.get_symbol_by_address a).1 = st := by
  simp only [ParserState.get_symbol_by_address]
  rw [if_neg hs]

lemma get_statistics_fst {st : ParserState} (hs : st.symbols ≠ []) :
    st.get_statistics.1 = st := by
  simp only [ParserState.get_statistics]
  rw [if_neg hs]

/-- The name/address/parameters/return-type projection of a function
list, used to say that only `size` fields may differ. -/
def projNoSize (fns : List Function) : List (String × Nat × List Param × Option String) :=
  fns.map fun f => (f.name, f.address, f.parameters, f.return_type)

lemma updateFirstSize_proj (fns : List Function) (n : String) (sz : Nat) :
    projNoSize (updateFirstSize fns n sz) = projNoSize fns := by
  induction fns with
  | nil => rfl
  | cons f rest ih =>
    unfold updateFirstSize
    by_cases h : f.name == n
    · simp [projNoSize, h]
    · simp only [h, if_false, Bool.false_eq_true]
      simp [projNoSize] at ih ⊢
      exact ih

/-- Every branch of `extract_subcalls` leaves the state either
untouched or with the first matching function's size overwritten. -/
lemma extract_subcalls_fst_cases (cap : Bool) (dec : List Nat → Nat → List Insn)
    (st : ParserState) (n : String) (P : ParserState → Prop)
    (h1 : P st)
    (h2 : ∀ est, P { st with functions := updateFirstSize st.functions n est }) :
    P (ParserState.extract_subcalls cap dec st n).1 := by
  cases hfind : st.functions.find? (fun f => f.name == n) with
  | none =>
    simp only [ParserState.extract_subcalls, hfind]
    split
    · exact h1
    · exact h1
  | some func0 =>
    by_cases hsz : func0.size = 0
    · simp only [ParserState.extract_subcalls, hfind, if_pos hsz]
      split
      · exact h1
      · split
        · exact h2 _
        · split
          · exact h2 _
          · split
            · exact h2 _
            · exact h2 _
    · simp only [ParserState.extract_subcalls, hfind, if_neg hsz]
      split
      · exact h1
      · split
        · exact h1
        · split
          · exact h1
          · split
            · exact h1
            · exact h1

/-- The trivial decoder used by concrete counterexamples. -/
def dec0 : List Nat → Nat → List Insn := fun _ _ => []

/-- Concrete state for the C3 counterexample: same as `stX` (a
zero-size function `g` follows `f`), with capstone available. -/
theorem claim_C3_counterexample :
    stX.indexBuilt ∧
    (ParserState.extract_subcalls true dec0 stX "g").1 ≠ stX := by
  constructor
  · show stX.sorted_func_addrs = buildAddrKeys stX; rfl
  · decide

/-- C3 (amended): after extraction (non-empty symbol and function
lists, built index) the search, containing-address, symbol-lookup and
statistics queries leave the parser state unchanged; `extract_subcalls`
may only overwrite the stored `size` of the first function carrying the
queried name (the zero-size estimation), leaving every name, address,
parameter list, return type, the symbol list, the structures, the
global variables and the address index untouched. -/
theorem claim_C3 (st : ParserState) (hb : st.indexBuilt)
    (hs : st.symbols ≠ []) (hf : st.functions ≠ []) :
    (∀ q e, (st.search_function q e).1 = st) ∧
    (∀ a, (st.get_function_containing_address a).1 = st) ∧
    (∀ a, (st.get_symbol_by_address a).1 = st) ∧
    (st.get_statistics.1 = st) ∧
    (∀ cap dec n, ∃ fns',
        (ParserState.extract_subcalls cap dec st n).1 = { st with functions := fns' } ∧
        projNoSize fns' = projNoSize st.functions) := by
  refine ⟨fun q e => search_function_fst hf q e,
          fun a => containing_fst hb a,
          fun a => get_symbol_by_address_fst hs a,
          get_statistics_fst hs,
          fun cap dec n => ?_⟩
  refine extract_subcalls_fst_cases cap dec st n
    (fun s => ∃ fns', s = { st with functions := fns' } ∧
        projNoSize fns' = projNoSize st.functions) ⟨st.functions, rfl, rfl⟩ ?_
  intro est
  exact ⟨updateFirstSize st.functions n est, rfl, updateFirstSize_proj _ _ _⟩

/-- C3 witness: the amended theorem applied at `stX`. -/
theorem claim_C3_witness :
    (stX.search_function "f" false).1 = stX ∧
    (stX.get_symbol_by_address 0x1000).1 = stX ∧
    ∃ fns', (ParserState.extract_subcalls true dec0 stX "g").1 =
        { stX with functions := fns' } ∧
      projNoSize fns' = projNoSize stX.functions := by
  have h := claim_C3 stX (by show stX.sorted_func_addrs = buildAddrKeys stX; rfl)
    (by decide) (by decide)
  exact ⟨h.1 "f" false, h.2.2.1 0x1000, h.2.2.2.2 true dec0 "g"⟩

/-! ### Call-target resolution priority -/

lemma mem_sortStr_dedup {l : List String} {a : String} :
    a ∈ sortStr l.dedup ↔ a ∈ l := by
  unfold sortStr
  rw [(List.perm_insertionSort _ _).mem_iff, List.mem_dedup]

/-- C2: each decoded call target is resolved through the strict
priority order — exact normalized-start map hit first (in particular it
beats a raw symbol-table entry under a different name at the same
address), then containing function, then raw symbol table, then the
hexadecimal fallback — and on a successful disassembly every target's
resolution is a member of the returned list (no target is dropped). -/
theorem claim_C2 (st : ParserState) :
    (∀ t F, st.func_addr_lookup (st.normalize t) = some F →
      st.resolve_call_target t = F.name) ∧
    (∀ t F, st.func_addr_lookup (st.normalize t) = none →
      (st.get_function_containing_address t).2 = some F →
      st.resolve_call_target t = F.name) ∧
    (∀ t s, st.func_addr_lookup (st.normalize t) = none →
      (st.get_function_containing_address t).2 = none →
      (st.get_symbol_by_address t).2 = some s →
      st.resolve_call_target t = s.name) ∧
    (∀ t, st.func_addr_lookup (st.normalize t) = none →
      (st.get_function_containing_address t).2 = none →
      (st.get_symbol_by_address t).2 = none →
      st.resolve_call_target t = "0x" ++ String.mk (Nat.toDigits 16 t)) ∧
    (∀ (dec : List Nat → Nat → List Insn) (n : String) (func0 : Function),
      st.functions.find? (fun f => f.name == n) = some func0 →
      func0.size ≠ 0 →
      st.get_function_bytes func0 ≠ [] →
      (∃ cfg, get_capstone_instance true st.has_elf st.arch func0.address = some cfg) →
      dec (st.get_function_bytes func0) (st.normalize func0.address) ≠ [] →
      ∀ t ∈ insnTargets (dec (st.get_function_bytes func0) (st.normalize func0.address)),
        st.resolve_call_target t ∈ (ParserState.extract_subcalls true dec st n).2) := by
  refine ⟨?_, ?_, ?_, ?_, ?_⟩
  · intro t F h
    simp only [ParserState.resolve_call_target, h]
  · intro t F h1 h2
    simp only [ParserState.resolve_call_target, h1, h2]
  · intro t s h1 h2 h3
    simp only [ParserState.resolve_call_target, h1, h2, h3]
  · intro t h1 h2 h3
    simp only [ParserState.resolve_call_target, h1, h2, h3]
  · intro dec n func0 hfind hsz hcode hcfg hne t ht
    obtain ⟨cfg, hcfg⟩ := hcfg
    simp only [ParserState.extract_subcalls, hfind, if_neg hsz, if_neg (by decide : ¬ ¬ True)]
    have hfunc : ({ func0 with size := func0.size } : Function) = func0 := rfl
    simp only [hfunc]
    rw [if_neg hcode]
    simp only [hcfg]
    rw [if_neg (fun h => hne (List.length_eq_zero.mp h))]
    exact mem_sortStr_dedup.mpr (List.mem_map_of_mem _ ht)

/-- Full concrete scenario for the C2 witness: one function `f` at
`0x1000` and a raw symbol `f_sym` at the same address under a different
name; the decoder yields a single `call 0x1000`. -/
def stW : ParserState :=
  { elf_syms := [],
    symbols := [{ name := "f_sym", address := 0x1000, size := 4, symbol_type := "STT_NOTYPE",
                  binding := "STB_LOCAL", sectionName := ".text" }],
    functions := [{ name := "f", address := 0x1000, size := 4,
                    parameters := [], return_type := none }],
    structures := [], global_vars := [],
    sorted_func_addrs := [0x1000],
    arch := "x64", has_elf := true,
    sections := [{ flags := 6, addr := 0x1000, size := 0x10,
                   data := [0, 0, 0, 0, 0, 0, 0, 0, 0, 0, 0, 0, 0, 0, 0, 0] }],
    elf_path := "p.elf", md5_hash := "h" }

/-- The decoder used by the C2 witness: a single immediate call to
`0x1000`. -/
def decW : List Nat → Nat → List Insn :=
  fun _ _ => [{ mnemonic := "call", operands := [{ otype := 2, imm := 0x1000 }] }]

/-- The function of `stW`. -/
def fW : Function :=
  { name := "f", address := 0x1000, size := 4, parameters := [], return_type := none }

/-- C2 witness: on `stW`, the call target `0x1000` that is both an
exact function start (`f`) and a raw symbol (`f_sym`) resolves to `f`
and is present in the returned subcall list. -/
theorem claim_C2_witness :
    stW.resolve_call_target 0x1000 = "f" ∧
    stW.resolve_call_target 0x1000 ∈ (ParserState.extract_subcalls true decW stW "f").2 := by
  have h := claim_C2 stW
  constructor
  · exact h.1 0x1000 fW (by decide)
  · exact h.2.2.2.2 decW "f" fW (by decide) (by decide) (by decide)
      ⟨(CS_ARCH_X86, CS_MODE_64), by decide⟩ (by decide) 0x1000 (by decide)

/-! ### 32-bit masking of call targets -/

/-- Shift every operand immediate of an instruction up by `2^32`
(e.g. the true 64-bit target versus its truncation). -/
def bumpImms (i : Insn) : Insn :=
  { i with operands := i.operands.map fun op => { op with imm := op.imm + 2 ^ 32 } }

/-- C9: the immediate operand of every decoded call/branch is reduced
modulo `2^32` before normalization and resolution: masking is invariant
under adding `2^32`, always lands below `2^32`, and the extracted
target list of a decoded stream is unchanged when every immediate is
moved up by `2^32` — so a 64-bit call target at or above `2^32` is
resolved at its truncated 32-bit address. -/
theorem claim_C9 :
    (∀ imm : Int, maskTarget (imm + 2 ^ 32) = maskTarget imm) ∧
    (∀ imm : Int, maskTarget imm < 2 ^ 32) ∧
    (∀ insns : List Insn, insnTargets (insns.map bumpImms) = insnTargets insns) := by
  have hmask : ∀ imm : Int, maskTarget (imm + 2 ^ 32) = maskTarget imm := by
    intro imm
    unfold maskTarget
    congr 1
    omega
  refine ⟨hmask, ?_, ?_⟩
  · intro imm
    unfold maskTarget
    omega
  · intro insns
    induction insns with
    | nil => rfl
    | cons i rest ih =>
      simp only [List.map_cons]
      unfold insnTargets at ih ⊢
      simp only [List.foldr_cons]
      rw [ih]
      by_cases hm : pyUpper i.mnemonic ∈ call_mnemonics
      · have hbm : (bumpImms i).mnemonic = i.mnemonic := rfl
        rw [if_pos (by rw [hbm]; exact hm), if_pos hm]
        cases hops : i.operands with
        | nil => simp [bumpImms, hops]
        | cons op ops =>
          simp only [bumpImms, hops, List.map_cons, List.head?_cons]
          by_cases hty : op.otype = 2
          · rw [if_pos hty, if_pos hty, hmask]
          · rw [if_neg hty, if_neg hty]
      · have hbm : (bumpImms i).mnemonic = i.mnemonic := rfl
        rw [if_neg (by rw [hbm]; exact hm), if_neg hm]

/-! ### Zero-size estimation and placeholder results -/

/-- The size `extract_subcalls` assigns to a zero-size function: the
gap from the normalized start to the next stored key, or the fixed
`0x200` default. -/
def sizeEstimate (st : ParserState) (func0 : Function) : Nat :=
  match st.sorted_func_addrs.get?
      (bisect_right st.sorted_func_addrs (st.normalize func0.address)) with
  | some next_addr => next_addr - st.normalize func0.address
  | none => 0x200

lemma extract_subcalls_fst_zero (dec : List Nat → Nat → List Insn)
    (st : ParserState) (n : String) (func0 : Function)
    (hfind : st.functions.find? (fun f => f.name == n) = some func0)
    (hsz : func0.size = 0) :
    (ParserState.extract_subcalls true dec st n).1 =
      { st with functions := updateFirstSize st.functions n (sizeEstimate st func0) } := by
  simp only [ParserState.extract_subcalls, hfind, if_pos hsz, sizeEstimate]
  rw [if_neg (by simp : ¬ ¬ True)]
  repeat' split
  all_goals rfl

/-- C8: a zero-size function gets its size estimated as the gap from
its normalized start to the least strictly greater key of the sorted
index, with the fixed `0x200` default when no greater key exists; and a
disassembly request with no decoder (capstone missing, or no
configuration for the architecture) yields exactly one explanatory
placeholder string. -/
theorem claim_C8 (st : ParserState) (hb : st.indexBuilt) :
    (∀ (dec : List Nat → Nat → List Insn) (n : String) (func0 : Function),
      st.functions.find? (fun f => f.name == n) = some func0 →
      func0.size = 0 →
      (ParserState.extract_subcalls true dec st n).1.functions =
          updateFirstSize st.functions n (sizeEstimate st func0) ∧
      ((∃ next, next ∈ st.sorted_func_addrs ∧ st.normalize func0.address < next ∧
          (∀ k ∈ st.sorted_func_addrs, st.normalize func0.address < k → next ≤ k) ∧
          sizeEstimate st func0 = next - st.normalize func0.address) ∨
        ((∀ k ∈ st.sorted_func_addrs, k ≤ st.normalize func0.address) ∧
          sizeEstimate st func0 = 0x200))) ∧
    (∀ (dec : List Nat → Nat → List Insn) (n : String),
      (ParserState.extract_subcalls false dec st n).2 = ["Capstone not installed"]) ∧
    (∀ (dec : List Nat → Nat → List Insn) (n : String) (func0 : Function),
      st.functions.find? (fun f => f.name == n) = some func0 →
      get_capstone_instance true st.has_elf st.arch func0.address = none →
      ∃ s, (ParserState.extract_subcalls true dec st n).2 = [s] ∧
        (s = "Could not retrieve function code" ∨ s = "Capstone init failed")) := by
  have hsorted : List.Sorted (· ≤ ·) st.sorted_func_addrs := by
    rw [hb]; exact sorted_buildAddrKeys st
  refine ⟨?_, ?_, ?_⟩
  · intro dec n func0 hfind hsz
    refine ⟨by rw [extract_subcalls_fst_zero dec st n func0 hfind hsz], ?_⟩
    unfold sizeEstimate
    cases hnext : st.sorted_func_addrs.get?
        (bisect_right st.sorted_func_addrs (st.normalize func0.address)) with
    | some next =>
      left
      obtain ⟨hmem, hlt, hmin⟩ := (bisect_right_next hsorted).mp hnext
      exact ⟨next, hmem, hlt, hmin, rfl⟩
    | none =>
      right
      exact ⟨bisect_right_none.mp hnext, rfl⟩
  · intro dec n
    rfl
  · intro dec n func0 hfind hcfg
    by_cases hsz : func0.size = 0
    · simp only [ParserState.extract_subcalls, hfind, if_pos hsz]
      rw [if_neg (by simp : ¬ ¬ True)]
      split
      · exact ⟨_, rfl, Or.inl rfl⟩
      · split
        · exact ⟨_, rfl, Or.inr rfl⟩
        · next cfg heq => exact absurd (hcfg.symm.trans heq) (by simp)
    · simp only [ParserState.extract_subcalls, hfind, if_neg hsz]
      rw [if_neg (by simp : ¬ ¬ True)]
      split
      · exact ⟨_, rfl, Or.inl rfl⟩
      · split
        · exact ⟨_, rfl, Or.inr rfl⟩
        · next cfg heq => exact absurd (hcfg.symm.trans heq) (by simp)

/-- The zero-size function of `stY`. -/
def fY : Function :=
  { name := "f", address := 0x1000, size := 0, parameters := [], return_type := none }

/-- Concrete witness state for C8: a zero-size `f` immediately followed
by `g` at `base + 0x40`, on an architecture without a decoder
configuration. -/
def stY : ParserState :=
  { elf_syms := [], symbols := [],
    functions := [fY,
                  { name := "g", address := 0x1040, size := 4,
                    parameters := [], return_type := none }],
    structures := [], global_vars := [],
    sorted_func_addrs := [0x1000, 0x1040],
    arch := "RISC-V", has_elf := true, sections := [],
    elf_path := "p.elf", md5_hash := "h" }

/-- C8 witness: on `stY` the zero-size `f` is assigned exactly `0x40`
(the gap to `g`), and the unsupported-architecture disassembly returns
exactly one placeholder string. -/
theorem claim_C8_witness :
    (ParserState.extract_subcalls true dec0 stY "f").1.functions =
      updateFirstSize stY.functions "f" (sizeEstimate stY fY) ∧
    sizeEstimate stY fY = 0x40 ∧
    ∃ s, (ParserState.extract_subcalls true dec0 stY "f").2 = [s] ∧
      (s = "Could not retrieve function code" ∨ s = "Capstone init failed") := by
  have h := claim_C8 stY (by show stY.sorted_func_addrs = buildAddrKeys stY; rfl)
  exact ⟨(h.1 dec0 "f" fY (by decide) (by decide)).1, by decide,
         h.2.2 dec0 "f" fY (by decide) (by decide)⟩

/-! ### search_function filtering and ordering -/

/-- Concrete state for the C10 counterexample: one function whose name
is the whitespace-padded string `" f "`. -/
def stS : ParserState :=
  { elf_syms := [], symbols := [],
    functions := [{ name := " f ", address := 0x10, size := 2,
                    parameters := [], return_type := none }],
    structures := [], global_vars := [],
    sorted_func_addrs := [0x10],
    arch := "x64", has_elf := true, sections := [],
    elf_path := "p.elf", md5_hash := "h" }

/-- C10 counterexample: the claim promises that in exact mode every
function whose name equals the query is returned, but `search_function`
strips the query first, so the query `" f "` does not return the
function named `" f "`. -/
theorem claim_C10_counterexample :
    stS.functions.map (fun f => f.name) = [" f "] ∧
    (stS.search_function " f " true).2 = [] := by
  constructor
  · rfl
  · decide

/-- C10 (amended): `search_function` never returns a function whose
name contains `"_EXIT_"` or ends with `"_function_end"`, even when the
query equals such a name; the query is first stripped of surrounding
whitespace, and among the remaining functions the exact mode returns
precisely those whose name equals the stripped query, the substring
mode precisely those whose lowercased name contains the lowercased
stripped query, with the functions whose name equals the stripped query
ordered before all others. -/
theorem claim_C10 (st : ParserState) (hf : st.functions ≠ []) :
    (∀ q e F, F ∈ (st.search_function q e).2 →
      occursIn "_EXIT_" F.name = false ∧ pyEndsWith F.name "_function_end" = false) ∧
    (∀ q F, F ∈ (st.search_function q true).2 ↔
      (F ∈ st.functions ∧ occursIn "_EXIT_" F.name = false ∧
        pyEndsWith F.name "_function_end" = false ∧ F.name = pyTrim q)) ∧
    (∀ q F, F ∈ (st.search_function q false).2 ↔
      (F ∈ st.functions ∧ occursIn "_EXIT_" F.name = false ∧
        pyEndsWith F.name "_function_end" = false ∧
        occursIn (pyLower (pyTrim q)) (pyLower F.name) = true)) ∧
    (∀ q, ∃ l1 l2, (st.search_function q false).2 = l1 ++ l2 ∧
      (∀ F ∈ l1, F.name = pyTrim q) ∧ (∀ F ∈ l2, F.name ≠ pyTrim q)) := by
  have hexact : ∀ q F, F ∈ (st.search_function q true).2 ↔
      (F ∈ st.functions ∧ occursIn "_EXIT_" F.name = false ∧
        pyEndsWith F.name "_function_end" = false ∧ F.name = pyTrim q) := by
    intro q F
    simp only [ParserState.search_function, if_neg hf, if_true, List.mem_filter,
      decide_eq_true_eq, Bool.not_eq_true, beq_iff_eq]
    tauto
  have hsub : ∀ q F, F ∈ (st.search_function q false).2 ↔
      (F ∈ st.functions ∧ occursIn "_EXIT_" F.name = false ∧
        pyEndsWith F.name "_function_end" = false ∧
        occursIn (pyLower (pyTrim q)) (pyLower F.name) = true) := by
    intro q F
    simp only [ParserState.search_function, if_neg hf, Bool.false_eq_true, if_false,
      List.mem_append, List.mem_filter, decide_eq_true_eq, Bool.not_eq_true,
      beq_iff_eq, bne_iff_ne]
    constructor
    · rintro (⟨⟨⟨hmem, hex, hend⟩, hocc⟩, -⟩ | ⟨⟨⟨hmem, hex, hend⟩, hocc⟩, -⟩) <;>
        exact ⟨hmem, hex, hend, hocc⟩
    · rintro ⟨hmem, hex, hend, hocc⟩
      by_cases hq : F.name = pyTrim q
      · exact Or.inl ⟨⟨⟨hmem, hex, hend⟩, hocc⟩, hq⟩
      · exact Or.inr ⟨⟨⟨hmem, hex, hend⟩, hocc⟩, hq⟩
  refine ⟨?_, hexact, hsub, ?_⟩
  · intro q e F hF
    cases e
    · have h := (hsub q F).mp hF
      exact ⟨h.2.1, h.2.2.1⟩
    · have h := (hexact q F).mp hF
      exact ⟨h.2.1, h.2.2.1⟩
  · intro q
    refine ⟨((st.functions.filter fun f =>
        ¬ occursIn "_EXIT_" f.name ∧ ¬ pyEndsWith f.name "_function_end").filter fun f =>
          occursIn (pyLower (pyTrim q)) (pyLower f.name)).filter
            (fun f => f.name == pyTrim q),
      ((st.functions.filter fun f =>
        ¬ occursIn "_EXIT_" f.name ∧ ¬ pyEndsWith f.name "_function_end").filter fun f =>
          occursIn (pyLower (pyTrim q)) (pyLower f.name)).filter
            (fun f => f.name != pyTrim q), ?_, ?_, ?_⟩
    · simp only [ParserState.search_function, if_neg hf, Bool.false_eq_true, if_false]
    · intro F hF
      have := (List.mem_filter.mp hF).2
      simpa using this
    · intro F hF
      have := (List.mem_filter.mp hF).2
      simpa using this

/-- C10 witness: the amended theorem applied at `stX` — the exact query
`"f"` and the case-insensitive substring query `"F"` both return `f`. -/
theorem claim_C10_witness :
    fX ∈ (stX.search_function "f" true).2 ∧
    fX ∈ (stX.search_function "F" false).2 := by
  have h := claim_C10 stX (by decide)
  exact ⟨(h.2.1 "f" fX).mpr (by decide), (h.2.2.1 "F" fX).mpr (by decide)⟩

/-! ### The fuzzy matcher -/

lemma charListLeB_total : ∀ a b : List Char,
    charListLeB a b = true ∨ charListLeB b a = true := by
  intro a
  induction a with
  | nil => intro b; left; rfl
  | cons x xs ih =>
    intro b
    cases b with
    | nil => right; rfl
    | cons y ys =>
      unfold charListLeB
      by_cases hxy : x.toNat < y.toNat
      · left; rw [if_pos hxy]
      · by_cases hyx : y.toNat < x.toNat
        · right; rw [if_pos hyx]
        · rw [if_neg hxy, if_neg hyx, if_neg hyx, if_neg hxy]
          exact ih ys

lemma charListLeB_trans : ∀ a b c : List Char,
    charListLeB a b = true → charListLeB b c = true → charListLeB a c = true := by
  intro a
  induction a with
  | nil => intro b c _ _; rfl
  | cons x xs ih =>
    intro b c hab hbc
    cases b with
    | nil => exact absurd hab (by simp [charListLeB])
    | cons y ys =>
      cases c with
      | nil => exact absurd hbc (by simp [charListLeB])
      | cons z zs =>
        unfold charListLeB at hab hbc ⊢
        by_cases hxy : x.toNat < y.toNat
        · by_cases hyz : y.toNat < z.toNat
          · rw [if_pos (by omega : x.toNat < z.toNat)]
          · by_cases hzy : z.toNat < y.toNat
            · rw [if_pos hzy, if_neg hyz] at hbc
              exact absurd hbc (by simp)
            · rw [if_pos (by omega : x.toNat < z.toNat)]
        · by_cases hyx : y.toNat < x.toNat
          · rw [if_neg hxy, if_pos hyx] at hab
            exact absurd hab (by simp)
          · by_cases hyz : y.toNat < z.toNat
            · rw [if_pos (by omega : x.toNat < z.toNat)]
            · by_cases hzy : z.toNat < y.toNat
              · rw [if_pos hzy, if_neg hyz] at hbc
                exact absurd hbc (by simp)
              · rw [if_neg hxy, if_neg hyx] at hab
                rw [if_neg hyz, if_neg hzy] at hbc
                rw [if_neg (by omega : ¬ x.toNat < z.toNat),
                    if_neg (by omega : ¬ z.toNat < x.toNat)]
                exact ih ys zs hab hbc

lemma charListLeB_antisymm : ∀ a b : List Char,
    charListLeB a b = true → charListLeB b a = true → a = b := by
  intro a
  induction a with
  | nil =>
    intro b _ hba
    cases b with
    | nil => rfl
    | cons y ys => exact absurd hba (by simp [charListLeB])
  | cons x xs ih =>
    intro b hab hba
    cases b with
    | nil => exact absurd hab (by simp [charListLeB])
    | cons y ys =>
      unfold charListLeB at hab hba
      by_cases hxy : x.toNat < y.toNat
      · rw [if_neg (by omega : ¬ y.toNat < x.toNat), if_pos hxy] at hba
        exact absurd hba (by simp)
      · by_cases hyx : y.toNat < x.toNat
        · rw [if_neg hxy, if_pos hyx] at hab
          exact absurd hab (by simp)
        · rw [if_neg hxy, if_neg hyx] at hab
          rw [if_neg hyx, if_neg hxy] at hba
          have hchar : x = y := by
            have hv : x.toNat = y.toNat := by omega
            exact Char.ext (UInt32.toNat.inj hv)
          rw [hchar, ih ys hab hba]

instance instPyStrLeTotal : IsTotal String pyStrLe :=
  ⟨fun a b => charListLeB_total a.toList b.toList⟩

instance instPyStrLeTrans : IsTrans String pyStrLe :=
  ⟨fun a b c => charListLeB_trans a.toList b.toList c.toList⟩

instance instPyStrLeAntisymm : IsAntisymm String pyStrLe :=
  ⟨fun a b h1 h2 => by
    cases a; cases b
    exact congrArg String.mk (charListLeB_antisymm _ _ h1 h2)⟩

/-- The running best of `extractOne`'s fold is a member of the scored
list (or the seed), no smaller than the seed, and no smaller than any
scored entry. -/
lemma foldl_max_spec : ∀ (ps : List (String × Nat)) (x : String × Nat),
    (ps.foldl (fun best y => if y.2 > best.2 then y else best) x = x ∨
     ps.foldl (fun best y => if y.2 > best.2 then y else best) x ∈ ps) ∧
    x.2 ≤ (ps.foldl (fun best y => if y.2 > best.2 then y else best) x).2 ∧
    ∀ p ∈ ps, p.2 ≤ (ps.foldl (fun best y => if y.2 > best.2 then y else best) x).2 := by
  intro ps
  induction ps with
  | nil => intro x; simp
  | cons y rest ih =>
    intro x
    simp only [List.foldl_cons]
    by_cases hy : y.2 > x.2
    · rw [if_pos hy]
      rcases ih y with ⟨hmem, hle, hall⟩
      refine ⟨?_, le_trans (le_of_lt hy) hle, ?_⟩
      · rcases hmem with h | h
        · exact Or.inr (by rw [h]; exact List.mem_cons_self _ _)
        · exact Or.inr (List.mem_cons_of_mem _ h)
      · intro p hp
        rcases List.mem_cons.mp hp with rfl | hp'
        · exact hle
        · exact hall p hp'
    · rw [if_neg hy]
      rcases ih x with ⟨hmem, hle, hall⟩
      refine ⟨?_, hle, ?_⟩
      · rcases hmem with h | h
        · exact Or.inl h
        · exact Or.inr (List.mem_cons_of_mem _ h)
      · intro p hp
        rcases List.mem_cons.mp hp with rfl | hp'
        · exact le_trans (le_of_not_lt hy) hle
        · exact hall p hp'

lemma extractOne_spec (scorer : String → String → Nat) (q : String)
    (choices : List String) (m : String) (sc : Nat)
    (h : extractOne scorer q choices = some (m, sc)) :
    m ∈ choices ∧ sc = scorer q m ∧ ∀ c ∈ choices, scorer q c ≤ sc := by
  unfold extractOne at h
  cases choices with
  | nil => simp at h
  | cons c cs =>
    simp only [List.map_cons] at h
    have h' := Option.some.inj h
    rcases foldl_max_spec (cs.map fun c => (c, scorer q c)) (c, scorer q c) with
      ⟨hmem, hle, hall⟩
    rw [h'] at hmem hle hall
    refine ⟨?_, ?_, ?_⟩
    · rcases hmem with he | he
      · rw [show m = c from congrArg Prod.fst he]
        exact List.mem_cons_self _ _
      · obtain ⟨c', hc', he⟩ := List.mem_map.mp he
        rw [show m = c' from (congrArg Prod.fst he).symm]
        exact List.mem_cons_of_mem _ hc'
    · rcases hmem with he | he
      · have h1 := congrArg Prod.fst he
        have h2 := congrArg Prod.snd he
        simp only at h1 h2
        rw [h1, h2]
      · obtain ⟨c', hc', he⟩ := List.mem_map.mp he
        have h1 := congrArg Prod.fst he
        have h2 := congrArg Prod.snd he
        simp only at h1 h2
        rw [← h1, ← h2]
    · intro c' hc'
      rcases List.mem_cons.mp hc' with rfl | hc''
      · exact hle
      · exact hall (c', scorer q c') (List.mem_map_of_mem _ hc'')

lemma extractOne_eq_none (scorer : String → String → Nat) (q : String)
    (choices : List String) :
    extractOne scorer q choices = none ↔ choices = [] := by
  cases choices <;> simp [extractOne]

/-- Tokens-permutation invariance of the token-sorted form. -/
lemma tokenSortedForm_perm_eq {q q' : String}
    (h : (procTokens q).Perm (procTokens q')) :
    tokenSortedForm q = tokenSortedForm q' := by
  unfold tokenSortedForm
  congr 1
  refine List.eq_of_perm_of_sorted ?_ (List.sorted_insertionSort _ _)
    (List.sorted_insertionSort _ _)
  exact (List.perm_insertionSort _ _).trans (h.trans (List.perm_insertionSort _ _).symm)

/-- C7: `find_best_match` returns no match exactly when the query is
empty, the pool is empty, or every pool entry scores below the
threshold; otherwise it returns the highest-scoring pool entry with its
score; and the token-sort metric is insensitive to token order in the
query. -/
theorem claim_C7 (score : String → String → Nat) (st : ParserState)
    (q : String) (threshold : Nat) :
    (find_best_match score st q threshold = (none, 0) ↔
      (q = "" ∨ search_pool st = [] ∨
        ∀ c ∈ search_pool st, tokenSortScore score q c < threshold)) ∧
    (∀ m sc, find_best_match score st q threshold = (some m, sc) →
      m ∈ search_pool st ∧ sc = tokenSortScore score q m ∧ threshold ≤ sc ∧
      ∀ c ∈ search_pool st, tokenSortScore score q c ≤ sc) ∧
    (∀ q', (procTokens q).Perm (procTokens q') →
      ∀ c, tokenSortScore score q c = tokenSortScore score q' c) := by
  refine ⟨?_, ?_, ?_⟩
  · constructor
    · intro h
      unfold find_best_match at h
      by_cases hq : q = "" ∨ search_pool st = []
      · tauto
      · push_neg at hq
        rw [if_neg (by tauto)] at h
        right; right
        cases hext : extractOne (tokenSortScore score) q (search_pool st) with
        | none =>
          exact absurd ((extractOne_eq_none _ _ _).mp hext) hq.2
        | some p =>
          obtain ⟨m, sc⟩ := p
          simp only [hext] at h
          by_cases hth : sc ≥ threshold
          · rw [if_pos hth] at h
            exact absurd (congrArg Prod.fst h) (by simp)
          · obtain ⟨-, heq, hall⟩ := extractOne_spec _ _ _ _ _ hext
            intro c hc
            exact lt_of_le_of_lt (hall c hc) (lt_of_not_le hth)
    · intro h
      unfold find_best_match
      rcases h with h | h | h
      · rw [if_pos (Or.inl h)]
      · rw [if_pos (Or.inr h)]
      · by_cases hq : q = "" ∨ search_pool st = []
        · rw [if_pos hq]
        · push_neg at hq
          rw [if_neg (by tauto)]
          cases hext : extractOne (tokenSortScore score) q (search_pool st) with
          | none => simp only [hext]
          | some p =>
            obtain ⟨m, sc⟩ := p
            obtain ⟨hmem, heq, -⟩ := extractOne_spec _ _ _ _ _ hext
            simp only [hext]
            rw [if_neg (not_le_of_lt (heq ▸ h m hmem))]
  · intro m sc h
    unfold find_best_match at h
    by_cases hq : q = "" ∨ search_pool st = []
    · rw [if_pos hq] at h
      exact absurd (congrArg Prod.fst h) (by simp)
    · push_neg at hq
      rw [if_neg (by tauto)] at h
      cases hext : extractOne (tokenSortScore score) q (search_pool st) with
      | none => simp only [hext] at h; exact absurd (congrArg Prod.fst h) (by simp)
      | some p =>
        obtain ⟨m', sc'⟩ := p
        simp only [hext] at h
        by_cases hth : sc' ≥ threshold
        · rw [if_pos hth] at h
          have h1 : m' = m := by
            have := congrArg Prod.fst h
            simpa using this
          have h2 : sc' = sc := congrArg Prod.snd h
          obtain ⟨hmem, heq, hall⟩ := extractOne_spec _ _ _ _ _ hext
          subst h1; subst h2
          exact ⟨hmem, heq, hth, hall⟩
        · rw [if_neg hth] at h
          exact absurd (congrArg Prod.fst h) (by simp)
  · intro q' hperm c
    unfold tokenSortScore
    rw [tokenSortedForm_perm_eq hperm]

/-- The identity-check scorer used by the C7 witness (the abstract base
ratio instantiated with an executable function). -/
def scoreW : String → String → Nat :=
  fun a b => if a == b then 100 else 0

/-- Matcher witness state: a single function named "init handler". -/
def stM : ParserState :=
  { elf_syms := [], symbols := [],
    functions := [{ name := "init handler", address := 0x1, size := 1,
                    parameters := [], return_type := none }],
    structures := [], global_vars := [],
    sorted_func_addrs := [0x1],
    arch := "x64", has_elf := true, sections := [],
    elf_path := "p.elf", md5_hash := "h" }

/-- C7 witness: on `stM` the query "handler init" (a token permutation
of the pool entry "init handler") is matched with the full score, and
the metric is invariant under that permutation. -/
theorem claim_C7_witness :
    (find_best_match scoreW stM "handler init" 70 = (some "init handler", 100) ∧
      "init handler" ∈ search_pool stM ∧
      100 = tokenSortScore scoreW "handler init" "init handler" ∧ 70 ≤ 100 ∧
      ∀ c ∈ search_pool stM, tokenSortScore scoreW "handler init" c ≤ 100) ∧
    tokenSortScore scoreW "handler init" "zz" =
      tokenSortScore scoreW "init handler" "zz" := by
  have h := claim_C7 scoreW stM "handler init" 70
  constructor
  · exact ⟨by decide, h.2.1 "init handler" 100 (by decide)⟩
  · exact h.2.2 "init handler" (by decide) "zz"

/-! ### Reconciliation state machine -/

/-- C5: when the override flag is set and the bound function name
changed since the last evaluation, a refresh force-recomputes the
displayed value from the new binding and raises the conflict (purple)
flag while preserving the override; a refresh never clears an existing
conflict flag (it is cleared only by a user interaction with the cell,
which always clears it and re-derives the override state from the
typed value). -/
theorem claim_C5 :
    (∀ (r : Option String) (f : String) (c : CellState),
      c.userChange = true → c.lastFunc ≠ none → c.lastFunc ≠ some f →
      (refresh_init_cell r f c).text = (if funcIsInit f then "1" else "0") ∧
      (refresh_init_cell r f c).purple = true ∧
      (refresh_init_cell r f c).userChange = true ∧
      (refresh_init_cell r f c).lastFunc = some f) ∧
    (∀ (r : Option String) (f : String) (c : CellState),
      c.purple = true → (refresh_init_cell r f c).purple = true) ∧
    (∀ (f typed : String) (c : CellState),
      (init_on_change f typed c).purple = false ∧
      ((init_on_change f typed c).userChange = true ↔
        (pyTrim typed ≠ "" ∧ pyTrim typed ≠ (if funcIsInit f then "1" else "0")))) := by
  refine ⟨?_, ?_, ?_⟩
  · intro r f c huc h1 h2
    have hearly : ¬ (f = "" ∧ ¬ c.userChange = true) := by
      rintro ⟨-, hn⟩; exact hn huc
    have hch : c.lastFunc ≠ none ∧ c.lastFunc ≠ some f := ⟨h1, h2⟩
    simp only [refresh_init_cell]
    rw [if_neg hearly]
    simp only [if_pos huc, if_pos hch, Bool.or_true]
    simp [huc]
  · intro r f c hp
    simp only [refresh_init_cell]
    split
    · exact hp
    · simp [hp]
  · intro f typed c
    simp only [init_on_change]
    by_cases h0 : pyTrim typed = ""
    · rw [if_pos h0]
      refine ⟨rfl, ?_⟩
      simp [h0]
    · rw [if_neg h0]
      by_cases h1 : pyTrim typed = (if funcIsInit f then "1" else "0")
      · rw [if_pos h1]
        refine ⟨rfl, ?_⟩
        simp [h0, h1]
      · rw [if_neg h1]
        refine ⟨rfl, ?_⟩
        simp [h0, h1]

/-- The overridden cell used by the C5 witness: the user wrote "1"
while the binding was "foo". -/
def cW : CellState :=
  { text := "1", userChange := true, lastFunc := some "foo", purple := false }

/-- C5 witness: rebinding the `cW` cell to `bar_init` force-recomputes
the value ("1" since the name contains "init"), raises the conflict
flag, and a user interaction clears it again. -/
theorem claim_C5_witness :
    (refresh_init_cell none "bar_init" cW).text = "1" ∧
    (refresh_init_cell none "bar_init" cW).purple = true ∧
    (init_on_change "bar_init" "0" (refresh_init_cell none "bar_init" cW)).purple = false := by
  have h := claim_C5
  obtain ⟨ht, hp, -, -⟩ := h.1 none "bar_init" cW rfl (by decide) (by decide)
  refine ⟨?_, hp, (h.2.2 "bar_init" "0" _).1⟩
  rw [ht]; decide

/-! ### Typedef chain walk: termination and registration -/

lemma derefType_mem {env : List DIE} {r : Option Nat} {d : DIE}
    (h : derefType env r = some d) : d ∈ env := by
  unfold derefType at h
  cases r with
  | none => simp at h
  | some off => exact List.mem_of_find?_eq_some h

lemma filter_notMem_cons_lt {l : List Nat} {o : Nat} {seen : List Nat}
    (ho : o ∈ l) (hno : o ∉ seen) :
    (l.filter fun x => decide (x ∉ o :: seen)).length <
      (l.filter fun x => decide (x ∉ seen)).length := by
  have hsub : (l.filter fun x => decide (x ∉ o :: seen)).Sublist
      (l.filter fun x => decide (x ∉ seen)) := by
    apply List.monotone_filter_right
    intro a ha
    simp only [decide_eq_true_eq, List.mem_cons] at ha ⊢
    intro hmem
    exact ha (Or.inr hmem)
  rcases Nat.lt_or_ge (l.filter fun x => decide (x ∉ o :: seen)).length
      (l.filter fun x => decide (x ∉ seen)).length with h | h
  · exact h
  · exfalso
    have hlen : (l.filter fun x => decide (x ∉ o :: seen)).length =
        (l.filter fun x => decide (x ∉ seen)).length :=
      le_antisymm hsub.length_le h
    have heq := hsub.eq_of_length hlen
    have homem : o ∈ l.filter fun x => decide (x ∉ seen) :=
      List.mem_filter.mpr ⟨ho, by simpa using hno⟩
    rw [← heq] at homem
    have := (List.mem_filter.mp homem).2
    simp at this

/-- The chain walk finishes (never exhausts its fuel) whenever the fuel
exceeds the number of distinct unvisited DIE offsets: each step adds a
fresh offset of the environment to `seen`. -/
lemma chainWalk_completes (env : List DIE) :
    ∀ (fuel : Nat) (seen : List Nat) (t : Option DIE),
      ((env.map fun d => d.offset).dedup.filter fun o => decide (o ∉ seen)).length < fuel →
      (∀ d, t = some d → d ∈ env) →
      (chainWalk env fuel seen t).2 = true := by
  intro fuel
  induction fuel with
  | zero => intro seen t h _; omega
  | succ n ih =>
    intro seen t hlt henv
    cases t with
    | none => rfl
    | some d =>
      show (chainWalk env (n + 1) seen (some d)).2 = true
      unfold chainWalk
      by_cases hseen : d.offset ∈ seen
      · rw [if_pos hseen]
      · rw [if_neg hseen]
        by_cases htag : d.tag ∈ cvtTags
        · rw [if_pos htag]
          apply ih
          · have hd : d ∈ env := henv d rfl
            have hoff : d.offset ∈ (env.map fun d => d.offset).dedup := by
              rw [List.mem_dedup, List.mem_map]
              exact ⟨d, hd, rfl⟩
            have hdec := filter_notMem_cons_lt hoff hseen
            omega
          · intro d' hd'
            exact derefType_mem hd'
        · rw [if_neg htag]

/-- C6 (amended): the typedef chain walk always terminates — with the
fuel `processTypedef` supplies it never runs out, the visited-offset
guard stopping every cycle — but a chain that ends in a
const/volatile/typedef node (which is exactly what a cyclic chain does,
since aggregates end the walk) registers nothing: the typedef's name is
not added to the structures table, rather than being registered "exactly
once" as the claim states. -/
theorem claim_C6 (env : List DIE) :
    (∀ (fuel : Nat) (seen : List Nat) (t : Option DIE),
      ((env.map fun d => d.offset).dedup.filter fun o => decide (o ∉ seen)).length < fuel →
      (∀ d, t = some d → d ∈ env) →
      (chainWalk env fuel seen t).2 = true) ∧
    (∀ t : Option DIE, (∀ d, t = some d → d ∈ env) →
      (chainWalk env (envFuel env) [] t).2 = true) ∧
    (∀ (structures : List (String × List Param)) (die : DIE),
      (∀ tfin, (chainWalk env (envFuel env) [] (derefType env die.typeRef)).1 = some tfin →
        tfin.tag ∉ aggregateTags) →
      processTypedef env structures die = structures) := by
  refine ⟨chainWalk_completes env, ?_, ?_⟩
  · intro t henv
    apply chainWalk_completes env (envFuel env) [] t ?_ henv
    unfold envFuel
    have : ((env.map fun d => d.offset).dedup.filter fun o => decide (o ∉ ([] : List Nat)))
        = (env.map fun d => d.offset).dedup := by
      apply List.filter_eq_self.mpr
      intro a _
      simp
    rw [this]
    omega
  · intro structures die h
    cases hdn : die.dname with
    | none => simp only [processTypedef, hdn]
    | some td_name =>
      cases htf : (chainWalk env (envFuel env) [] (derefType env die.typeRef)).1 with
      | none => simp only [processTypedef, hdn, htf]
      | some t =>
        simp only [processTypedef, hdn, htf]
        rw [if_neg (h t htf)]

/-- The directly self-referential typedef: `T`'s `DW_AT_type` points at
`T` itself. -/
def dT : DIE :=
  { offset := 0, tag := "DW_TAG_typedef", dname := some "T",
    typeRef := some 0, declaration := false, children := [] }

/-- The one-entry DWARF environment holding only the cyclic typedef. -/
def selfEnv : List DIE := [dT]

/-- C6 counterexample: on the directly self-referential typedef `T` the
walk terminates (the guard fires), but no field list is registered at
all — `structures` stays empty — contradicting the claim that the
aliased field list is registered exactly once. -/
theorem claim_C6_counterexample :
    (chainWalk selfEnv (envFuel selfEnv) [] (derefType selfEnv dT.typeRef)).2 = true ∧
    processTypedef selfEnv [] dT = [] ∧
    assocFind (processTypedef selfEnv [] dT) "T" = none := by
  refine ⟨rfl, rfl, rfl⟩

/-- C6 witness: the amended theorem applied to the self-referential
environment — the walk completes and nothing is registered. -/
theorem claim_C6_witness :
    (chainWalk selfEnv (envFuel selfEnv) [] (derefType selfEnv dT.typeRef)).2 = true ∧
    processTypedef selfEnv [] dT = [] := by
  have h := claim_C6 selfEnv
  constructor
  · apply h.2.1
    intro d hd
    have hd' : (some dT : Option DIE) = some d := hd
    have : dT = d := by injection hd'
    rw [← this]
    exact List.mem_cons_self _ _
  · apply h.2.2
    intro tfin htf
    have htf' : (some dT : Option DIE) = some tfin := htf
    have : dT = tfin := by injection htf'
    rw [← this]
    decide

/-! ### Cache round-trip -/

lemma decodeParam_toJson (p : Param) : decodeParam p.toJson = some p := rfl

lemma decodeSymbol_toJson (s : Symbol) : decodeSymbol s.toJson = some s := rfl

lemma decodeList_roundtrip {α β : Type} (enc : α → β) (dec : β → Option α)
    (h : ∀ a, dec (enc a) = some a) : ∀ l : List α, decodeList dec (l.map enc) = some l := by
  intro l
  induction l with
  | nil => rfl
  | cons a rest ih =>
    show decodeList dec (enc a :: rest.map enc) = some (a :: rest)
    unfold decodeList
    rw [h a, ih]
    rfl

lemma decodeFunction_toJson (f : Function) : decodeFunction f.toJson = some f := by
  obtain ⟨n, a, sz, ps, rt⟩ := f
  have hps : decodeList decodeParam (ps.map Param.toJson) = some ps :=
    decodeList_roundtrip Param.toJson decodeParam decodeParam_toJson ps
  cases rt with
  | none => simp [decodeFunction, Function.toJson, jlookup, decodeStr, decodeNat, hps]
  | some r => simp [decodeFunction, Function.toJson, jlookup, decodeStr, decodeNat, hps]

lemma decodeStructEntry_roundtrip (p : String × List Param) :
    decodeStructEntry (p.1, Json.jarr (p.2.map Param.toJson)) = some p := by
  obtain ⟨k, ps⟩ := p
  have hps : decodeList decodeParam (ps.map Param.toJson) = some ps :=
    decodeList_roundtrip Param.toJson decodeParam decodeParam_toJson ps
  simp [decodeStructEntry, hps]

lemma decodeVarEntry_roundtrip (p : String × String) :
    decodeVarEntry (p.1, Json.jstr p.2) = some p := rfl

/-- Decoding the document value reproduces the four collections element
for element: the value layer of the round trip. -/
lemma load_cache_collections_doc (st : ParserState) :
    load_cache_collections st.save_cache_doc =
      some (st.symbols, st.functions, st.structures, st.global_vars) := by
  have hsy : decodeList decodeSymbol (st.symbols.map Symbol.toJson) = some st.symbols :=
    decodeList_roundtrip Symbol.toJson decodeSymbol decodeSymbol_toJson _
  have hfn : decodeList decodeFunction (st.functions.map Function.toJson) =
      some st.functions :=
    decodeList_roundtrip Function.toJson decodeFunction decodeFunction_toJson _
  have hst : decodeList decodeStructEntry
      (st.structures.map fun p => (p.1, Json.jarr (p.2.map Param.toJson))) =
      some st.structures :=
    decodeList_roundtrip _ decodeStructEntry decodeStructEntry_roundtrip _
  have hgv : decodeList decodeVarEntry
      (st.global_vars.map fun p => (p.1, Json.jstr p.2)) = some st.global_vars :=
    decodeList_roundtrip _ decodeVarEntry decodeVarEntry_roundtrip _
  simp [load_cache_collections, ParserState.save_cache_doc, jlookup, hsy, hfn, hst, hgv]

/-! ### Text-layer round trip: lexer lemmas -/

lemma skipWs_cons_ws {c : Char} (h : jsonWsChar c = true) (l : List Char) :
    skipWs (c :: l) = skipWs l := by
  simp [skipWs, List.dropWhile_cons, h]

lemma skipWs_cons_not {c : Char} (h : jsonWsChar c = false) (l : List Char) :
    skipWs (c :: l) = c :: l := by
  simp [skipWs, List.dropWhile_cons, h]

lemma skipWs_append_ws {w : List Char} (hw : ∀ c ∈ w, jsonWsChar c = true) (l : List Char) :
    skipWs (w ++ l) = skipWs l := by
  induction w with
  | nil => rfl
  | cons c t ih =>
    rw [List.cons_append, skipWs_cons_ws (hw c (List.mem_cons_self c t))]
    exact ih fun x hx => hw x (List.mem_cons_of_mem c hx)

/-- No continuation handed to a value parser starts with a digit (so a
number literal never glues onto what follows it). -/
def headSafe : List Char → Prop
  | [] => True
  | c :: _ => c.isDigit = false

lemma headSafe_cons {c : Char} (h : c.isDigit = false) (l : List Char) :
    headSafe (c :: l) := h

lemma isDigit_toNat {c : Char} (h : c.isDigit = true) : 48 ≤ c.toNat ∧ c.toNat ≤ 57 := by
  simp [Char.isDigit, Char.le_def] at h
  exact ⟨h.1, h.2⟩

lemma ws_not_digit {c : Char} (h : jsonWsChar c = true) : c.isDigit = false := by
  simp [jsonWsChar] at h
  rcases h with ((h | h) | h) | h <;> subst h <;> decide

lemma hexVal_hexDigitChar : ∀ n < 16, hexVal (hexDigitChar n) = some n := by decide

lemma lexStringBody_quote (l : List Char) : lexStringBody ('"' :: l) = some ([], l) := by
  rw [lexStringBody.eq_def]
  simp

lemma lexStringBody_esc2 {e d : Char} (hd : escDecode e = some d) (he : ¬ e = 'u')
    (l : List Char) :
    lexStringBody ('\\' :: e :: l) = (lexStringBody l).map fun p => (d :: p.1, p.2) := by
  rw [lexStringBody.eq_def]
  simp [he, hd]

lemma lexStringBody_plain {c : Char} (h1 : ¬ c = '"') (h2 : ¬ c = '\\') (h3 : ¬ c.toNat < 32)
    (l : List Char) :
    lexStringBody (c :: l) = (lexStringBody l).map fun p => (c :: p.1, p.2) := by
  rw [lexStringBody.eq_def]
  simp [h1, h2, h3]

lemma lexStringBody_u {a b : Char} {x y : Nat} (ha : hexVal a = some x) (hb : hexVal b = some y)
    (l : List Char) :
    lexStringBody ('\\' :: 'u' :: '0' :: '0' :: a :: b :: l) =
      (lexStringBody l).map fun p => (Char.ofNat (16 * x + y) :: p.1, p.2) := by
  rw [lexStringBody.eq_def]
  simp only [show hexVal '0' = some 0 from rfl, ha, hb]
  simp

lemma jsonStrSafeChar_spec {c : Char} (hc : jsonStrSafeChar c = true) :
    ¬ c = '"' ∧ ¬ c = '\\' ∧ ¬ c.toNat < 32 := by
  have h : (¬ c = '"' ∧ ¬ c = '\\') ∧ 32 ≤ c.toNat := by
    simpa [jsonStrSafeChar, not_or] using hc
  exact ⟨h.1.1, h.1.2, by omega⟩

lemma lexStringBody_safe : ∀ (s rest : List Char), (∀ c ∈ s, jsonStrSafeChar c = true) →
    lexStringBody (s ++ '"' :: rest) = some (s, rest) := by
  intro s
  induction s with
  | nil => intro rest _; rw [List.nil_append]; exact lexStringBody_quote rest
  | cons c t ih =>
    intro rest h
    obtain ⟨h1, h2, h3⟩ := jsonStrSafeChar_spec (h c (List.mem_cons_self c t))
    rw [List.cons_append, lexStringBody_plain h1 h2 h3,
      ih rest fun x hx => h x (List.mem_cons_of_mem c hx)]
    rfl

lemma lexStringBody_escString : ∀ (s rest : List Char),
    lexStringBody (escString s ++ '"' :: rest) = some (s, rest) := by
  intro s
  induction s with
  | nil =>
    intro rest
    rw [show escString [] = [] from rfl, List.nil_append]
    exact lexStringBody_quote rest
  | cons c t ih =>
    intro rest
    show lexStringBody ((escapeChar c ++ escString t) ++ '"' :: rest) = some (c :: t, rest)
    rw [List.append_assoc]
    by_cases h1 : c = '"'
    · subst h1
      rw [show escapeChar '"' = ['\\', '"'] from rfl]
      show lexStringBody ('\\' :: '"' :: (escString t ++ '"' :: rest)) = _
      rw [lexStringBody_esc2 (show escDecode '"' = some '"' from rfl) (by decide), ih]
      rfl
    · by_cases h2 : c = '\\'
      · subst h2
        rw [show escapeChar '\\' = ['\\', '\\'] from rfl]
        show lexStringBody ('\\' :: '\\' :: (escString t ++ '"' :: rest)) = _
        rw [lexStringBody_esc2 (show escDecode '\\' = some '\\' from rfl) (by decide), ih]
        rfl
      · by_cases h3 : c = '\n'
        · subst h3
          rw [show escapeChar '\n' = ['\\', 'n'] from rfl]
          show lexStringBody ('\\' :: 'n' :: (escString t ++ '"' :: rest)) = _
          rw [lexStringBody_esc2 (show escDecode 'n' = some '\n' from rfl) (by decide), ih]
          rfl
        · by_cases h4 : c = '\t'
          · subst h4
            rw [show escapeChar '\t' = ['\\', 't'] from rfl]
            show lexStringBody ('\\' :: 't' :: (escString t ++ '"' :: rest)) = _
            rw [lexStringBody_esc2 (show escDecode 't' = some '\t' from rfl) (by decide), ih]
            rfl
          · by_cases h5 : c.toNat = 13
            · have hc : c = Char.ofNat 13 := by rw [← Char.ofNat_toNat c, h5]
              subst hc
              rw [show escapeChar (Char.ofNat 13) = ['\\', 'r'] from rfl]
              show lexStringBody ('\\' :: 'r' :: (escString t ++ '"' :: rest)) = _
              rw [lexStringBody_esc2
                (show escDecode 'r' = some (Char.ofNat 13) from rfl) (by decide), ih]
              rfl
            · by_cases h6 : c.toNat = 8
              · have hc : c = Char.ofNat 8 := by rw [← Char.ofNat_toNat c, h6]
                subst hc
                rw [show escapeChar (Char.ofNat 8) = ['\\', 'b'] from rfl]
                show lexStringBody ('\\' :: 'b' :: (escString t ++ '"' :: rest)) = _
                rw [lexStringBody_esc2
                  (show escDecode 'b' = some (Char.ofNat 8) from rfl) (by decide), ih]
                rfl
              · by_cases h7 : c.toNat = 12
                · have hc : c = Char.ofNat 12 := by rw [← Char.ofNat_toNat c, h7]
                  subst hc
                  rw [show escapeChar (Char.ofNat 12) = ['\\', 'f'] from rfl]
                  show lexStringBody ('\\' :: 'f' :: (escString t ++ '"' :: rest)) = _
                  rw [lexStringBody_esc2
                    (show escDecode 'f' = some (Char.ofNat 12) from rfl) (by decide), ih]
                  rfl
                · by_cases h8 : c.toNat < 32
                  · rw [show escapeChar c = ['\\', 'u', '0', '0',
                        hexDigitChar (c.toNat / 16), hexDigitChar (c.toNat % 16)] from by
                      simp [escapeChar, h1, h2, h3, h4, h5, h6, h7, h8]]
                    show lexStringBody ('\\' :: 'u' :: '0' :: '0' ::
                      hexDigitChar (c.toNat / 16) :: hexDigitChar (c.toNat % 16) ::
                      (escString t ++ '"' :: rest)) = _
                    rw [lexStringBody_u (hexVal_hexDigitChar _ (by omega))
                      (hexVal_hexDigitChar _ (by omega)), ih]
                    rw [show 16 * (c.toNat / 16) + c.toNat % 16 = c.toNat from by omega,
                      Char.ofNat_toNat]
                    rfl
                  · rw [show escapeChar c = [c] from by
                      simp [escapeChar, h1, h2, h3, h4, h5, h6, h7, h8]]
                    show lexStringBody (c :: (escString t ++ '"' :: rest)) = _
                    rw [lexStringBody_plain h1 h2 h8, ih]
                    rfl

/-! ### Text-layer round trip: numbers -/

/-- Reference digit expansion, high digit first (proof-level twin of
`natDigitsAux`). -/
def natDigitsSpec (n : Nat) : List Char :=
  if n < 10 then [digitChar n]
  else natDigitsSpec (n / 10) ++ [digitChar (n % 10)]
termination_by n
decreasing_by exact Nat.div_lt_self (by omega) (by omega)

lemma natDigitsAux_spec : ∀ (fuel : Nat), ∀ (n : Nat), n < 10 ^ fuel → ∀ (acc : List Char),
    natDigitsAux (fuel + 1) n acc = natDigitsSpec n ++ acc := by
  intro fuel
  induction fuel with
  | zero =>
    intro n hn acc
    have h0 : n = 0 := by simpa using hn
    subst h0
    rw [natDigitsSpec]
    rfl
  | succ f ih =>
    intro n hn acc
    by_cases h : n < 10
    · show natDigitsAux (f + 1 + 1) n acc = _
      unfold natDigitsAux
      rw [if_pos h, natDigitsSpec, if_pos h]
      rfl
    · show natDigitsAux (f + 1 + 1) n acc = _
      unfold natDigitsAux
      rw [if_neg h]
      have hd : n / 10 < 10 ^ f := by
        rw [Nat.div_lt_iff_lt_mul (by omega : 0 < 10)]
        calc n < 10 ^ (f + 1) := hn
        _ = 10 ^ f * 10 := by ring
      rw [ih (n / 10) hd]
      conv_rhs => rw [natDigitsSpec]
      rw [if_neg h, List.append_assoc]
      rfl

lemma natDigits_eq_spec (n : Nat) : natDigits n = natDigitsSpec n := by
  have h : n < 10 ^ n := Nat.lt_pow_self (by omega) n
  have := natDigitsAux_spec n n h []
  unfold natDigits
  simpa using this

lemma digitChar_facts : ∀ n < 10, (digitChar n).isDigit = true ∧ (digitChar n).toNat = n + 48 := by
  decide

lemma natDigitsSpec_all_digits (n : Nat) : ∀ c ∈ natDigitsSpec n, c.isDigit = true := by
  induction n using Nat.strong_induction_on with
  | _ n ih =>
    rw [natDigitsSpec]
    split
    · next h =>
      intro c hc
      simp only [List.mem_singleton] at hc
      subst hc
      exact (digitChar_facts n h).1
    · next h =>
      intro c hc
      rw [List.mem_append] at hc
      rcases hc with hc | hc
      · exact ih (n / 10) (Nat.div_lt_self (by omega) (by omega)) c hc
      · simp only [List.mem_singleton] at hc
        subst hc
        exact (digitChar_facts (n % 10) (Nat.mod_lt _ (by omega))).1

lemma natDigitsSpec_ne_nil (n : Nat) : natDigitsSpec n ≠ [] := by
  rw [natDigitsSpec]
  split
  · simp
  · simp

lemma natDigitsSpec_foldl (n : Nat) :
    (natDigitsSpec n).foldl (fun a c => 10 * a + (c.toNat - 48)) 0 = n := by
  induction n using Nat.strong_induction_on with
  | _ n ih =>
    rw [natDigitsSpec]
    split
    · next h =>
      show 10 * 0 + ((digitChar n).toNat - 48) = n
      rw [(digitChar_facts n h).2]
      omega
    · next h =>
      rw [List.foldl_append, ih (n / 10) (Nat.div_lt_self (by omega) (by omega))]
      show 10 * (n / 10) + ((digitChar (n % 10)).toNat - 48) = n
      rw [(digitChar_facts (n % 10) (Nat.mod_lt _ (by omega))).2]
      omega

lemma lexNatAux_digits : ∀ (ds : List Char) (acc : Nat) (rest : List Char),
    (∀ c ∈ ds, c.isDigit = true) → headSafe rest →
    lexNatAux (ds ++ rest) acc = (ds.foldl (fun a c => 10 * a + (c.toNat - 48)) acc, rest) := by
  intro ds
  induction ds with
  | nil =>
    intro acc rest _ hr
    cases rest with
    | nil => rfl
    | cons c t =>
      show lexNatAux (c :: t) acc = (acc, c :: t)
      unfold lexNatAux
      simp [show c.isDigit = false from hr]
  | cons d dt ih =>
    intro acc rest hd hr
    rw [List.cons_append]
    show lexNatAux (d :: (dt ++ rest)) acc = _
    unfold lexNatAux
    rw [if_pos (hd d (List.mem_cons_self d dt)), ih _ rest
      (fun x hx => hd x (List.mem_cons_of_mem d hx)) hr]
    rfl

lemma lexNat_natDigits (n : Nat) (rest : List Char) (hr : headSafe rest) :
    lexNat (natDigits n ++ rest) = some (n, rest) := by
  rw [natDigits_eq_spec]
  rcases hd : natDigitsSpec n with _ | ⟨d, ds⟩
  · exact absurd hd (natDigitsSpec_ne_nil n)
  · have hdig : ∀ c ∈ d :: ds, c.isDigit = true := by
      rw [← hd]
      exact natDigitsSpec_all_digits n
    rw [List.cons_append]
    show lexNat (d :: (ds ++ rest)) = _
    unfold lexNat
    show (if d.isDigit = true then some (lexNatAux (ds ++ rest) (d.toNat - 48)) else none)
      = some (n, rest)
    rw [if_pos (hdig d (List.mem_cons_self d ds)), lexNatAux_digits ds _ rest
      (fun x hx => hdig x (List.mem_cons_of_mem d hx)) hr]
    have hv := natDigitsSpec_foldl n
    rw [hd, List.foldl_cons] at hv
    have hacc : 10 * 0 + (d.toNat - 48) = d.toNat - 48 := by omega
    rw [hacc] at hv
    rw [hv]

/-! ### Text-layer round trip: parser step lemmas -/

lemma parseAny_ws0 {w : List Char} (hw : ∀ c ∈ w, jsonWsChar c = true)
    (fuel : Nat) (l : List Char) : parseAny fuel 0 (w ++ l) = parseAny fuel 0 l := by
  cases fuel with
  | zero => rfl
  | succ f => rw [parseAny.eq_2, parseAny.eq_2, skipWs_append_ws hw]

lemma parseAny_ws1 {w : List Char} (hw : ∀ c ∈ w, jsonWsChar c = true)
    (fuel : Nat) (l : List Char) : parseAny fuel 1 (w ++ l) = parseAny fuel 1 l := by
  cases fuel with
  | zero => rfl
  | succ f => rw [parseAny.eq_3, parseAny.eq_3, skipWs_append_ws hw]

lemma parseAny_ws2 {w : List Char} (hw : ∀ c ∈ w, jsonWsChar c = true)
    (fuel : Nat) (l : List Char) : parseAny fuel 2 (w ++ l) = parseAny fuel 2 l := by
  cases fuel with
  | zero => rfl
  | succ f => rw [parseAny.eq_4, parseAny.eq_4, parseAny_ws0 hw f l]

lemma parseAny_step_str {l ts : List Char} (f : Nat) (h : skipWs l = '"' :: ts) :
    parseAny (f + 1) 0 l = match lexStringBody ts with
      | some p => some (.jstr (String.mk p.1), p.2)
      | none => none := by
  rw [parseAny.eq_2]
  simp only [h]
  rw [if_pos trivial]

lemma parseAny_step_obj {l ts us : List Char} (f : Nat) (h : skipWs l = '{' :: ts)
    (h2 : skipWs ts = '"' :: us) :
    parseAny (f + 1) 0 l = parseAny f 1 ts := by
  rw [parseAny.eq_2]
  simp only [h, h2]
  rw [if_neg (by decide), if_pos trivial]
  rfl

lemma parseAny_step_obj_empty {l ts us : List Char} (f : Nat) (h : skipWs l = '{' :: ts)
    (h2 : skipWs ts = '}' :: us) :
    parseAny (f + 1) 0 l = some (.jobj [], us) := by
  rw [parseAny.eq_2]
  simp only [h, h2]
  rw [if_neg (by decide), if_pos trivial]

lemma parseAny_step_arr {l ts us : List Char} (f : Nat) (h : skipWs l = '[' :: ts)
    (h2 : skipWs ts = '{' :: us) :
    parseAny (f + 1) 0 l = parseAny f 2 ts := by
  rw [parseAny.eq_2]
  simp only [h, h2]
  rw [if_neg (by decide), if_neg (by decide), if_pos trivial]
  rfl

lemma parseAny_step_arr_empty {l ts us : List Char} (f : Nat) (h : skipWs l = '[' :: ts)
    (h2 : skipWs ts = ']' :: us) :
    parseAny (f + 1) 0 l = some (.jarr [], us) := by
  rw [parseAny.eq_2]
  simp only [h, h2]
  rw [if_neg (by decide), if_neg (by decide), if_pos trivial]

lemma parseAny_step_null {l ts : List Char} (f : Nat)
    (h : skipWs l = 'n' :: ('u' :: 'l' :: 'l' :: ts)) :
    parseAny (f + 1) 0 l = some (.jnull, ts) := by
  rw [parseAny.eq_2]
  simp only [h]
  rw [if_neg (by decide), if_neg (by decide), if_neg (by decide), if_pos trivial]

lemma digit_ne {c : Char} (h : c.isDigit = true) :
    ¬ c = '"' ∧ ¬ c = '{' ∧ ¬ c = '[' ∧ ¬ c = 'n' := by
  have hb := isDigit_toNat h
  refine ⟨?_, ?_, ?_, ?_⟩ <;> intro hc <;> subst hc <;> revert hb <;> decide

lemma digit_not_ws {c : Char} (h : c.isDigit = true) : jsonWsChar c = false := by
  by_contra hw
  rw [Bool.not_eq_false] at hw
  rw [ws_not_digit hw] at h
  exact absurd h (by simp)

lemma parseAny_step_num {l ts : List Char} {c : Char} (f : Nat)
    (h : skipWs l = c :: ts) (hc : c.isDigit = true) :
    parseAny (f + 1) 0 l = match lexNat (c :: ts) with
      | some p => some (.jnum p.1, p.2)
      | none => none := by
  obtain ⟨n1, n2, n3, n4⟩ := digit_ne hc
  rw [parseAny.eq_2]
  simp only [h]
  rw [if_neg n1, if_neg n2, if_neg n3, if_neg n4, if_pos hc]

lemma parseAny_step_mem_last {l ts k r1 r2 r3 r4 : List Char} {v : Json} (f : Nat)
    (hsk : skipWs l = '"' :: ts) (hlex : lexStringBody ts = some (k, r1))
    (hc : skipWs r1 = ':' :: r2) (hv : parseAny f 0 r2 = some (v, r3))
    (hbr : skipWs r3 = '}' :: r4) :
    parseAny (f + 1) 1 l = some (.jobj [(String.mk k, v)], r4) := by
  rw [parseAny.eq_3]
  simp only [hsk, hlex, hc, hv, hbr]

lemma parseAny_step_mem_cons {l ts k r1 r2 r3 r4 r5 : List Char} {v : Json}
    {ms : List (String × Json)} (f : Nat)
    (hsk : skipWs l = '"' :: ts) (hlex : lexStringBody ts = some (k, r1))
    (hc : skipWs r1 = ':' :: r2) (hv : parseAny f 0 r2 = some (v, r3))
    (hcm : skipWs r3 = ',' :: r4) (hrec : parseAny f 1 r4 = some (.jobj ms, r5)) :
    parseAny (f + 1) 1 l = some (.jobj ((String.mk k, v) :: ms), r5) := by
  rw [parseAny.eq_3]
  simp only [hsk, hlex, hc, hv, hcm, hrec]

lemma parseAny_step_elem_last {l r1 r2 : List Char} {v : Json} (f : Nat)
    (hv : parseAny f 0 l = some (v, r1)) (hbr : skipWs r1 = ']' :: r2) :
    parseAny (f + 1) 2 l = some (.jarr [v], r2) := by
  rw [parseAny.eq_4]
  simp only [hv, hbr]

lemma parseAny_step_elem_cons {l r1 r2 r3 : List Char} {v : Json} {es : List Json} (f : Nat)
    (hv : parseAny f 0 l = some (v, r1)) (hcm : skipWs r1 = ',' :: r2)
    (hrec : parseAny f 2 r2 = some (.jarr es, r3)) :
    parseAny (f + 1) 2 l = some (.jarr (v :: es), r3) := by
  rw [parseAny.eq_4]
  simp only [hv, hcm, hrec]

/-! ### Text-layer round trip: values -/

/-- The value text parses to exactly `j`, leaving any continuation
that does not begin with a digit, with two spare units of fuel beyond
the input length (member values always have that slack: at least the
quoted key and `': '` were consumed before them). -/
def ParsesTo (text : List Char) (j : Json) : Prop :=
  ∀ rest fuel, headSafe rest → (text ++ rest).length + 2 < fuel →
    parseAny fuel 0 (text ++ rest) = some (j, rest)

/-- The tight interface for object-shaped value texts: fuel covering
the input length suffices.  This is what `json_load` grants the whole
document and what the element chain grants each array element. -/
def ParsesToObj (text : List Char) (j : Json) : Prop :=
  ∀ rest fuel, (text ++ rest).length ≤ fuel →
    parseAny fuel 0 (text ++ rest) = some (j, rest)

lemma ParsesToObj.parsesTo {text : List Char} {j : Json} (h : ParsesToObj text j) :
    ParsesTo text j :=
  fun rest fuel _ hlen => h rest fuel (by omega)

lemma parsesTo_strLit (s : String) : ParsesTo (strLit s) (.jstr s) := by
  intro rest fuel _ hlen
  cases fuel with
  | zero => exact absurd hlen (Nat.not_lt_zero _)
  | succ f =>
    have e1 : strLit s ++ rest = '"' :: (escString s.toList ++ '"' :: rest) := by
      simp [strLit]
    rw [e1, parseAny_step_str f (skipWs_cons_not (by decide) _),
      lexStringBody_escString]
    rfl

lemma parsesTo_rawStr (s : String) (hs : jsonStrSafe s = true) :
    ParsesTo ('"' :: (s.toList ++ ['"'])) (.jstr s) := by
  intro rest fuel _ hlen
  cases fuel with
  | zero => exact absurd hlen (Nat.not_lt_zero _)
  | succ f =>
    have e1 : ('"' :: (s.toList ++ ['"'])) ++ rest = '"' :: (s.toList ++ '"' :: rest) := by
      simp
    rw [e1, parseAny_step_str f (skipWs_cons_not (by decide) _),
      lexStringBody_safe s.toList rest (by simpa [jsonStrSafe, List.all_eq_true] using hs)]
    rfl

lemma parsesTo_null : ParsesTo ['n', 'u', 'l', 'l'] .jnull := by
  intro rest fuel _ hlen
  cases fuel with
  | zero => exact absurd hlen (Nat.not_lt_zero _)
  | succ f =>
    have e1 : (['n', 'u', 'l', 'l'] : List Char) ++ rest
        = 'n' :: ('u' :: 'l' :: 'l' :: rest) := rfl
    rw [e1, parseAny_step_null f (skipWs_cons_not (by decide) _)]

lemma parsesTo_natDigits (n : Nat) : ParsesTo (natDigits n) (.jnum n) := by
  intro rest fuel hr hlen
  cases fuel with
  | zero => exact absurd hlen (Nat.not_lt_zero _)
  | succ f =>
    rcases hd : natDigits n with _ | ⟨d, ds⟩
    · rw [natDigits_eq_spec] at hd
      exact absurd hd (natDigitsSpec_ne_nil n)
    · have hdig : d.isDigit = true := by
        have := natDigitsSpec_all_digits n d
        rw [← natDigits_eq_spec, hd] at this
        exact this (List.mem_cons_self d ds)
      show parseAny (f + 1) 0 (d :: (ds ++ rest)) = some (.jnum n, rest)
      rw [parseAny_step_num f (skipWs_cons_not (digit_not_ws hdig) _) hdig]
      rw [← List.cons_append, ← hd, lexNat_natDigits n rest hr]

/-! ### Text-layer round trip: member and element chains -/

lemma headSafe_ws_close {post : List Char} (hpost : ∀ c ∈ post, jsonWsChar c = true)
    {c : Char} (hc : c.isDigit = false) (rest : List Char) :
    headSafe (post ++ c :: rest) := by
  cases post with
  | nil => exact hc
  | cons p pt => exact ws_not_digit (hpost p (List.mem_cons_self p pt))

lemma parse_members_chain (ws post : List Char)
    (hws : ∀ c ∈ ws, jsonWsChar c = true) (hpost : ∀ c ∈ post, jsonWsChar c = true) :
    ∀ (ms : List (String × List Char × Json)) (m : String × List Char × Json),
      (∀ x ∈ m :: ms, ParsesTo x.2.1 x.2.2) →
      ∀ (rest : List Char) (fuel : Nat),
        (membersTextW ws ((m :: ms).map fun x => (x.1, x.2.1)) ++ (post ++ '}' :: rest)).length
          ≤ fuel →
        parseAny fuel 1
          (membersTextW ws ((m :: ms).map fun x => (x.1, x.2.1)) ++ (post ++ '}' :: rest))
          = some (.jobj ((m :: ms).map fun x => (x.1, x.2.2)), rest) := by
  intro ms
  induction ms with
  | nil =>
    intro m hvals rest fuel hlen
    obtain ⟨k, vt, v⟩ := m
    have e1 : membersTextW ws ([(k, vt, v)].map fun x => (x.1, x.2.1))
          ++ (post ++ '}' :: rest)
        = '"' :: (escString k.toList
          ++ '"' :: (':' :: (' ' :: (vt ++ (post ++ '}' :: rest))))) := by
      simp [membersTextW, memTextW, strLit, sepBy]
    rw [e1] at hlen ⊢
    cases fuel with
    | zero => simp at hlen
    | succ f =>
      have hlen2 : (vt ++ (post ++ '}' :: rest)).length + 2 < f := by
        simp only [List.length_cons, List.length_append] at hlen ⊢
        omega
      have hv : parseAny f 0 (' ' :: (vt ++ (post ++ '}' :: rest)))
          = some (v, post ++ '}' :: rest) := by
        have habs := parseAny_ws0 (w := [' ']) (by decide) f (vt ++ (post ++ '}' :: rest))
        rw [List.singleton_append] at habs
        rw [habs]
        exact hvals (k, vt, v) (List.mem_cons_self _ _) (post ++ '}' :: rest) f
          (headSafe_ws_close hpost (by decide) rest) hlen2
      exact parseAny_step_mem_last f (skipWs_cons_not (by decide) _)
        (lexStringBody_escString k.toList _)
        (skipWs_cons_not (by decide) _) hv
        (by rw [skipWs_append_ws hpost]; exact skipWs_cons_not (by decide) _)
  | cons m2 tl ih =>
    intro m hvals rest fuel hlen
    obtain ⟨k, vt, v⟩ := m
    have e1 : membersTextW ws (((k, vt, v) :: m2 :: tl).map fun x => (x.1, x.2.1))
          ++ (post ++ '}' :: rest)
        = '"' :: (escString k.toList ++ '"' :: (':' :: (' ' :: (vt ++ (',' :: (ws
          ++ (membersTextW ws ((m2 :: tl).map fun x => (x.1, x.2.1))
            ++ (post ++ '}' :: rest)))))))) := by
      simp [membersTextW, memTextW, strLit, sepBy]
    rw [e1] at hlen ⊢
    cases fuel with
    | zero => simp at hlen
    | succ f =>
      have hlen2 : (vt ++ (',' :: (ws
          ++ (membersTextW ws ((m2 :: tl).map fun x => (x.1, x.2.1))
            ++ (post ++ '}' :: rest))))).length + 2 < f := by
        simp only [List.length_cons, List.length_append] at hlen ⊢
        omega
      have hlen3 : (membersTextW ws ((m2 :: tl).map fun x => (x.1, x.2.1))
          ++ (post ++ '}' :: rest)).length ≤ f := by
        simp only [List.length_cons, List.length_append] at hlen ⊢
        omega
      have hv : parseAny f 0 (' ' :: (vt ++ (',' :: (ws
          ++ (membersTextW ws ((m2 :: tl).map fun x => (x.1, x.2.1))
            ++ (post ++ '}' :: rest))))))
          = some (v, ',' :: (ws
            ++ (membersTextW ws ((m2 :: tl).map fun x => (x.1, x.2.1))
              ++ (post ++ '}' :: rest)))) := by
        have habs := parseAny_ws0 (w := [' ']) (by decide) f (vt ++ (',' :: (ws
          ++ (membersTextW ws ((m2 :: tl).map fun x => (x.1, x.2.1))
            ++ (post ++ '}' :: rest)))))
        rw [List.singleton_append] at habs
        rw [habs]
        exact hvals (k, vt, v) (List.mem_cons_self _ _) _ f
          (headSafe_cons (by decide) _) hlen2
      have hrec : parseAny f 1 (ws
          ++ (membersTextW ws ((m2 :: tl).map fun x => (x.1, x.2.1))
            ++ (post ++ '}' :: rest)))
          = some (.jobj ((m2 :: tl).map fun x => (x.1, x.2.2)), rest) := by
        rw [parseAny_ws1 hws]
        exact ih m2 (fun x hx => hvals x (List.mem_cons_of_mem _ hx)) rest f hlen3
      exact parseAny_step_mem_cons f (skipWs_cons_not (by decide) _)
        (lexStringBody_escString k.toList _)
        (skipWs_cons_not (by decide) _) hv
        (skipWs_cons_not (by decide) _) hrec

lemma parse_elems_chain (ws post : List Char)
    (hws : ∀ c ∈ ws, jsonWsChar c = true) (hpost : ∀ c ∈ post, jsonWsChar c = true) :
    ∀ (es : List (List Char × Json)) (e : List Char × Json),
      (∀ x ∈ e :: es, ParsesToObj x.1 x.2) →
      (∀ x ∈ e :: es, ∃ t, x.1 = '{' :: t) →
      ∀ (rest : List Char) (fuel : Nat),
        (e.1 ++ (sepBy ws (es.map fun x => x.1) ++ (post ++ ']' :: rest))).length < fuel →
        parseAny fuel 2
          (e.1 ++ (sepBy ws (es.map fun x => x.1) ++ (post ++ ']' :: rest)))
          = some (.jarr ((e :: es).map fun x => x.2), rest) := by
  intro es
  induction es with
  | nil =>
    intro e hvals _ rest fuel hlen
    have e1 : e.1 ++ (sepBy ws (([] : List (List Char × Json)).map fun x => x.1)
          ++ (post ++ ']' :: rest))
        = e.1 ++ (post ++ ']' :: rest) := by
      simp [sepBy]
    rw [e1] at hlen ⊢
    cases fuel with
    | zero => exact absurd hlen (Nat.not_lt_zero _)
    | succ f =>
      have hv : parseAny f 0 (e.1 ++ (post ++ ']' :: rest))
          = some (e.2, post ++ ']' :: rest) :=
        hvals e (List.mem_cons_self _ _) (post ++ ']' :: rest) f (by omega)
      exact parseAny_step_elem_last f hv
        (by rw [skipWs_append_ws hpost]; exact skipWs_cons_not (by decide) _)
  | cons e2 tl ih =>
    intro e hvals hobjs rest fuel hlen
    have e1 : e.1 ++ (sepBy ws (((e2 :: tl)).map fun x => x.1) ++ (post ++ ']' :: rest))
        = e.1 ++ (',' :: (ws ++ (e2.1 ++ (sepBy ws (tl.map fun x => x.1)
          ++ (post ++ ']' :: rest))))) := by
      simp [sepBy]
    rw [e1] at hlen ⊢
    cases fuel with
    | zero => exact absurd hlen (Nat.not_lt_zero _)
    | succ f =>
      obtain ⟨t1, ht1⟩ := hobjs e (List.mem_cons_self _ _)
      have hv : parseAny f 0 (e.1 ++ (',' :: (ws ++ (e2.1
          ++ (sepBy ws (tl.map fun x => x.1) ++ (post ++ ']' :: rest))))))
          = some (e.2, ',' :: (ws ++ (e2.1
            ++ (sepBy ws (tl.map fun x => x.1) ++ (post ++ ']' :: rest))))) := by
        refine hvals e (List.mem_cons_self _ _) _ f ?_
        simp only [List.length_cons, List.length_append] at hlen ⊢
        omega
      have hrec : parseAny f 2 (ws ++ (e2.1
          ++ (sepBy ws (tl.map fun x => x.1) ++ (post ++ ']' :: rest))))
          = some (.jarr ((e2 :: tl).map fun x => x.2), rest) := by
        rw [parseAny_ws2 hws]
        refine ih e2 (fun x hx => hvals x (List.mem_cons_of_mem _ hx))
          (fun x hx => hobjs x (List.mem_cons_of_mem _ hx)) rest f ?_
        have hepos : 1 ≤ e.1.length := by rw [ht1]; simp
        simp only [List.length_cons, List.length_append] at hlen ⊢
        omega
      exact parseAny_step_elem_cons f hv (skipWs_cons_not (by decide) _) hrec

/-! ### Text-layer round trip: object and array values -/

lemma membersTextW_head (ws : List Char) (p : String × List Char)
    (t : List (String × List Char)) (X : List Char) :
    membersTextW ws (p :: t) ++ X
      = '"' :: (escString p.1.toList ++ ('"' :: (':' :: (' ' :: (p.2
        ++ (sepBy ws (t.map memTextW) ++ X)))))) := by
  simp [membersTextW, memTextW, strLit]

lemma parsesToObj_empty : ParsesToObj ['{', '}'] (.jobj []) := by
  intro rest fuel hlen
  cases fuel with
  | zero => simp at hlen
  | succ f =>
    show parseAny (f + 1) 0 ('{' :: ('}' :: rest)) = some (.jobj [], rest)
    exact parseAny_step_obj_empty f (skipWs_cons_not (by decide) _)
      (skipWs_cons_not (by decide) _)

lemma parsesToObj_objG (pre ws post : List Char)
    (hpre : ∀ c ∈ pre, jsonWsChar c = true) (hws : ∀ c ∈ ws, jsonWsChar c = true)
    (hpost : ∀ c ∈ post, jsonWsChar c = true)
    (ms : List (String × List Char × Json)) (m : String × List Char × Json)
    (hvals : ∀ x ∈ m :: ms, ParsesTo x.2.1 x.2.2) :
    ParsesToObj
      ('{' :: (pre ++ (membersTextW ws ((m :: ms).map fun x => (x.1, x.2.1))
        ++ (post ++ ['}']))))
      (.jobj ((m :: ms).map fun x => (x.1, x.2.2))) := by
  intro rest fuel hlen
  have e1 : ('{' :: (pre ++ (membersTextW ws ((m :: ms).map fun x => (x.1, x.2.1))
        ++ (post ++ ['}'])))) ++ rest
      = '{' :: (pre ++ (membersTextW ws ((m :: ms).map fun x => (x.1, x.2.1))
        ++ (post ++ '}' :: rest))) := by
    simp
  rw [e1] at hlen ⊢
  cases fuel with
  | zero => simp at hlen
  | succ f =>
    have hhead : skipWs (pre ++ (membersTextW ws ((m :: ms).map fun x => (x.1, x.2.1))
          ++ (post ++ '}' :: rest)))
        = '"' :: (escString m.1.toList ++ ('"' :: (':' :: (' ' :: (m.2.1
          ++ (sepBy ws ((ms.map fun x => (x.1, x.2.1)).map memTextW)
            ++ (post ++ '}' :: rest))))))) := by
      rw [skipWs_append_ws hpre]
      rw [show ((m :: ms).map fun x => (x.1, x.2.1))
          = (m.1, m.2.1) :: (ms.map fun x => (x.1, x.2.1)) from rfl]
      rw [membersTextW_head]
      exact skipWs_cons_not (by decide) _
    rw [parseAny_step_obj f (skipWs_cons_not (by decide) _) hhead]
    rw [parseAny_ws1 hpre]
    refine parse_members_chain ws post hws hpost ms m hvals rest f ?_
    simp only [List.length_cons, List.length_append] at hlen ⊢
    omega

lemma parsesTo_arrEmptyG (pre : List Char) (hpre : ∀ c ∈ pre, jsonWsChar c = true) :
    ParsesTo ('[' :: (pre ++ [']'])) (.jarr []) := by
  intro rest fuel _ hlen
  have e1 : ('[' :: (pre ++ [']'])) ++ rest = '[' :: (pre ++ (']' :: rest)) := by
    simp
  rw [e1] at hlen ⊢
  cases fuel with
  | zero => exact absurd hlen (Nat.not_lt_zero _)
  | succ f =>
    exact parseAny_step_arr_empty f (skipWs_cons_not (by decide) _)
      (by rw [skipWs_append_ws hpre]; exact skipWs_cons_not (by decide) _)

lemma parsesTo_arrG (pre ws post : List Char)
    (hpre : ∀ c ∈ pre, jsonWsChar c = true) (hws : ∀ c ∈ ws, jsonWsChar c = true)
    (hpost : ∀ c ∈ post, jsonWsChar c = true)
    (es : List (List Char × Json)) (e : List Char × Json)
    (hvals : ∀ x ∈ e :: es, ParsesToObj x.1 x.2)
    (hobjs : ∀ x ∈ e :: es, ∃ t, x.1 = '{' :: t) :
    ParsesTo ('[' :: (pre ++ (e.1 ++ (sepBy ws (es.map fun x => x.1) ++ (post ++ [']'])))))
      (.jarr ((e :: es).map fun x => x.2)) := by
  intro rest fuel _ hlen
  have e1 : ('[' :: (pre ++ (e.1 ++ (sepBy ws (es.map fun x => x.1)
        ++ (post ++ [']']))))) ++ rest
      = '[' :: (pre ++ (e.1 ++ (sepBy ws (es.map fun x => x.1)
        ++ (post ++ ']' :: rest)))) := by
    simp
  rw [e1] at hlen ⊢
  cases fuel with
  | zero => exact absurd hlen (Nat.not_lt_zero _)
  | succ f =>
    obtain ⟨t1, ht1⟩ := hobjs e (List.mem_cons_self _ _)
    have hhead : skipWs (pre ++ (e.1 ++ (sepBy ws (es.map fun x => x.1)
          ++ (post ++ ']' :: rest))))
        = '{' :: (t1 ++ (sepBy ws (es.map fun x => x.1) ++ (post ++ ']' :: rest))) := by
      rw [skipWs_append_ws hpre, ht1]
      exact skipWs_cons_not (by decide) _
    rw [parseAny_step_arr f (skipWs_cons_not (by decide) _) hhead]
    rw [parseAny_ws2 hpre]
    refine parse_elems_chain ws post hws hpost es e hvals hobjs rest f ?_
    simp only [List.length_cons, List.length_append] at hlen ⊢
    omega

/-! ### Text-layer round trip: the shapes the writer emits -/

lemma parsesTo_inlineArr {α : Type} (pr : α → List Char) (tj : α → Json)
    (hval : ∀ a : α, ParsesToObj (pr a) (tj a)) (hobj : ∀ a : α, ∃ t, pr a = '{' :: t)
    (xs : List α) : ParsesTo (printArrW (xs.map pr)) (.jarr (xs.map tj)) := by
  cases xs with
  | nil => exact parsesTo_arrEmptyG [] (by simp)
  | cons a t =>
    have h := parsesTo_arrG [] [' '] [] (by simp) (by decide) (by simp)
      (t.map fun b => (pr b, tj b)) (pr a, tj a)
      (by
        intro x hx
        rcases List.mem_cons.mp hx with rfl | hx2
        · exact hval a
        · obtain ⟨b, _, rfl⟩ := List.mem_map.mp hx2
          exact hval b)
      (by
        intro x hx
        rcases List.mem_cons.mp hx with rfl | hx2
        · exact hobj a
        · obtain ⟨b, _, rfl⟩ := List.mem_map.mp hx2
          exact hobj b)
    have e : '[' :: (([] : List Char) ++ ((pr a) ++ (sepBy [' ']
          ((t.map fun b => (pr b, tj b)).map fun x => x.1) ++ ([] ++ [']']))))
        = printArrW ((a :: t).map pr) := by
      simp [printArrW, List.map_map, Function.comp_def]
    have ej : ((pr a, tj a) :: t.map fun b => (pr b, tj b)).map (fun x => x.2)
        = (a :: t).map tj := by
      simp [List.map_map]
    rw [← e]
    rw [show ((a :: t).map tj) = ((pr a, tj a) :: t.map fun b => (pr b, tj b)).map
      (fun x => x.2) from ej.symm]
    exact h

lemma cacheLines_decomp : ∀ (t : List (List Char)) (x : List Char),
    cacheLines (x :: t)
      = ' ' :: (' ' :: (' ' :: (' ' :: (x ++ (sepBy ['\n', ' ', ' ', ' ', ' '] t
        ++ ['\n']))))) := by
  intro t
  induction t with
  | nil =>
    intro x
    simp [cacheLines, sepBy]
  | cons y t2 ih =>
    intro x
    rw [show cacheLines (x :: y :: t2)
        = ' ' :: (' ' :: (' ' :: (' ' :: (x ++ (',' :: ('\n' :: cacheLines (y :: t2)))))))
        from by simp [cacheLines]]
    rw [ih y]
    simp [sepBy]

lemma parsesTo_streamArr {α : Type} (pr : α → List Char) (tj : α → Json)
    (hval : ∀ a : α, ParsesToObj (pr a) (tj a)) (hobj : ∀ a : α, ∃ t, pr a = '{' :: t)
    (xs : List α) :
    ParsesTo ('[' :: ('\n' :: (cacheLines (xs.map pr) ++ (' ' :: (' ' :: [']'])))))
      (.jarr (xs.map tj)) := by
  cases xs with
  | nil => exact parsesTo_arrEmptyG ['\n', ' ', ' '] (by decide)
  | cons a t =>
    have h := parsesTo_arrG ['\n', ' ', ' ', ' ', ' '] ['\n', ' ', ' ', ' ', ' ']
      ['\n', ' ', ' '] (by decide) (by decide) (by decide)
      (t.map fun b => (pr b, tj b)) (pr a, tj a)
      (by
        intro x hx
        rcases List.mem_cons.mp hx with rfl | hx2
        · exact hval a
        · obtain ⟨b, _, rfl⟩ := List.mem_map.mp hx2
          exact hval b)
      (by
        intro x hx
        rcases List.mem_cons.mp hx with rfl | hx2
        · exact hobj a
        · obtain ⟨b, _, rfl⟩ := List.mem_map.mp hx2
          exact hobj b)
    have e : '[' :: ((['\n', ' ', ' ', ' ', ' '] : List Char) ++ ((pr a) ++ (sepBy
          ['\n', ' ', ' ', ' ', ' '] ((t.map fun b => (pr b, tj b)).map fun x => x.1)
          ++ ((['\n', ' ', ' '] : List Char) ++ [']']))))
        = '[' :: ('\n' :: (cacheLines ((a :: t).map pr) ++ (' ' :: (' ' :: [']'])))) := by
      rw [show (a :: t).map pr = pr a :: t.map pr from rfl, cacheLines_decomp]
      simp [List.map_map, Function.comp_def]
    have ej : ((pr a, tj a) :: t.map fun b => (pr b, tj b)).map (fun x => x.2)
        = (a :: t).map tj := by
      simp [List.map_map]
    rw [← e]
    rw [show ((a :: t).map tj) = ((pr a, tj a) :: t.map fun b => (pr b, tj b)).map
      (fun x => x.2) from ej.symm]
    exact h

lemma parsesToObj_printParam (p : Param) : ParsesToObj (printParam p) (Param.toJson p) := by
  have h := parsesToObj_objG [] [' '] [] (by simp) (by decide) (by simp)
    [("type", strLit p.type, Json.jstr p.type)] ("name", strLit p.name, Json.jstr p.name)
    (by
      intro x hx
      rcases List.mem_cons.mp hx with rfl | hx2
      · exact parsesTo_strLit p.name
      · rcases List.mem_singleton.mp hx2 with rfl
        exact parsesTo_strLit p.type)
  exact h

lemma parsesTo_printParams (ps : List Param) :
    ParsesTo (printParams ps) (.jarr (ps.map Param.toJson)) :=
  parsesTo_inlineArr printParam Param.toJson parsesToObj_printParam
    (fun _ => ⟨_, rfl⟩) ps

lemma parsesToObj_printSymbol (s : Symbol) :
    ParsesToObj (printSymbol s) (Symbol.toJson s) := by
  have h := parsesToObj_objG [] [' '] [] (by simp) (by decide) (by simp)
    [("address", natDigits s.address, Json.jnum s.address),
     ("size", natDigits s.size, Json.jnum s.size),
     ("symbol_type", strLit s.symbol_type, Json.jstr s.symbol_type),
     ("binding", strLit s.binding, Json.jstr s.binding),
     ("section", strLit s.sectionName, Json.jstr s.sectionName)]
    ("name", strLit s.name, Json.jstr s.name)
    (by
      intro x hx
      simp only [List.mem_cons, List.not_mem_nil, or_false] at hx
      rcases hx with rfl | rfl | rfl | rfl | rfl | rfl
      · exact parsesTo_strLit s.name
      · exact parsesTo_natDigits s.address
      · exact parsesTo_natDigits s.size
      · exact parsesTo_strLit s.symbol_type
      · exact parsesTo_strLit s.binding
      · exact parsesTo_strLit s.sectionName)
  exact h

lemma parsesToObj_printFunction (f : Function) :
    ParsesToObj (printFunction f) (Function.toJson f) := by
  have hrt : ParsesTo (match f.return_type with
      | some r => strLit r
      | none => ['n', 'u', 'l', 'l'])
      (match f.return_type with
      | some r => Json.jstr r
      | none => Json.jnull) := by
    cases f.return_type with
    | none => exact parsesTo_null
    | some r => exact parsesTo_strLit r
  have h := parsesToObj_objG [] [' '] [] (by simp) (by decide) (by simp)
    [("address", natDigits f.address, Json.jnum f.address),
     ("size", natDigits f.size, Json.jnum f.size),
     ("parameters", printParams f.parameters,
        Json.jarr (f.parameters.map Param.toJson)),
     ("return_type", (match f.return_type with
        | some r => strLit r
        | none => ['n', 'u', 'l', 'l']),
        (match f.return_type with
        | some r => Json.jstr r
        | none => Json.jnull))]
    ("name", strLit f.name, Json.jstr f.name)
    (by
      intro x hx
      simp only [List.mem_cons, List.not_mem_nil, or_false] at hx
      rcases hx with rfl | rfl | rfl | rfl | rfl
      · exact parsesTo_strLit f.name
      · exact parsesTo_natDigits f.address
      · exact parsesTo_natDigits f.size
      · exact parsesTo_printParams f.parameters
      · exact hrt)
  exact h

lemma parsesToObj_structObj (l : List (String × List Param)) :
    ParsesToObj (printObjW (l.map fun p => (p.1, printParams p.2)))
      (.jobj (l.map fun p => (p.1, Json.jarr (p.2.map Param.toJson)))) := by
  cases l with
  | nil => exact parsesToObj_empty
  | cons x t =>
    have h := parsesToObj_objG [] [' '] [] (by simp) (by decide) (by simp)
      (t.map fun p => (p.1, printParams p.2, Json.jarr (p.2.map Param.toJson)))
      (x.1, printParams x.2, Json.jarr (x.2.map Param.toJson))
      (by
        intro y hy
        rcases List.mem_cons.mp hy with rfl | hy2
        · exact parsesTo_printParams x.2
        · obtain ⟨q, _, rfl⟩ := List.mem_map.mp hy2
          exact parsesTo_printParams q.2)
    have e1 : ((x.1, printParams x.2, Json.jarr (x.2.map Param.toJson))
          :: t.map fun p => (p.1, printParams p.2, Json.jarr (p.2.map Param.toJson))).map
          (fun y => (y.1, y.2.1))
        = (x :: t).map fun p => (p.1, printParams p.2) := by
      simp [List.map_map]
    have e2 : ((x.1, printParams x.2, Json.jarr (x.2.map Param.toJson))
          :: t.map fun p => (p.1, printParams p.2, Json.jarr (p.2.map Param.toJson))).map
          (fun y => (y.1, y.2.2))
        = (x :: t).map fun p => (p.1, Json.jarr (p.2.map Param.toJson)) := by
      simp [List.map_map]
    rw [e1, e2] at h
    have e3 : '{' :: (([] : List Char)
          ++ (membersTextW [' '] ((x :: t).map fun p => (p.1, printParams p.2)) ++ ([] ++ ['}'])))
        = printObjW ((x :: t).map fun p => (p.1, printParams p.2)) := by
      simp [printObjW]
    rw [e3] at h
    exact h

lemma parsesToObj_globalsObj (l : List (String × String)) :
    ParsesToObj (printObjW (l.map fun p => (p.1, strLit p.2)))
      (.jobj (l.map fun p => (p.1, Json.jstr p.2))) := by
  cases l with
  | nil => exact parsesToObj_empty
  | cons x t =>
    have h := parsesToObj_objG [] [' '] [] (by simp) (by decide) (by simp)
      (t.map fun p => (p.1, strLit p.2, Json.jstr p.2))
      (x.1, strLit x.2, Json.jstr x.2)
      (by
        intro y hy
        rcases List.mem_cons.mp hy with rfl | hy2
        · exact parsesTo_strLit x.2
        · obtain ⟨q, _, rfl⟩ := List.mem_map.mp hy2
          exact parsesTo_strLit q.2)
    have e1 : ((x.1, strLit x.2, Json.jstr x.2)
          :: t.map fun p => (p.1, strLit p.2, Json.jstr p.2)).map (fun y => (y.1, y.2.1))
        = (x :: t).map fun p => (p.1, strLit p.2) := by
      simp [List.map_map]
    have e2 : ((x.1, strLit x.2, Json.jstr x.2)
          :: t.map fun p => (p.1, strLit p.2, Json.jstr p.2)).map (fun y => (y.1, y.2.2))
        = (x :: t).map fun p => (p.1, Json.jstr p.2) := by
      simp [List.map_map]
    rw [e1, e2] at h
    have e3 : '{' :: (([] : List Char)
          ++ (membersTextW [' '] ((x :: t).map fun p => (p.1, strLit p.2)) ++ ([] ++ ['}'])))
        = printObjW ((x :: t).map fun p => (p.1, strLit p.2)) := by
      simp [printObjW]
    rw [e3] at h
    exact h

/-! ### Text-layer round trip: the whole document -/

/-- With safe splices, `json.load` on the written file returns exactly
the document value `save_cache_doc`. -/
lemma json_load_save_cache (st : ParserState)
    (hp : jsonStrSafe st.elf_path = true) (hh : jsonStrSafe st.md5_hash = true) :
    json_load st.save_cache = some st.save_cache_doc := by
  have hobj := parsesToObj_objG ['\n', ' ', ' '] ['\n', ' ', ' '] ['\n']
    (by decide) (by decide) (by decide)
    [("elf_hash", '"' :: (st.md5_hash.toList ++ ['"']), Json.jstr st.md5_hash),
     ("symbols", '[' :: ('\n' :: (cacheLines (st.symbols.map printSymbol)
        ++ (' ' :: (' ' :: [']'])))), Json.jarr (st.symbols.map Symbol.toJson)),
     ("functions", '[' :: ('\n' :: (cacheLines (st.functions.map printFunction)
        ++ (' ' :: (' ' :: [']'])))), Json.jarr (st.functions.map Function.toJson)),
     ("structures", printObjW (st.structures.map fun p => (p.1, printParams p.2)),
        Json.jobj (st.structures.map fun p => (p.1, Json.jarr (p.2.map Param.toJson)))),
     ("global_vars", printObjW (st.global_vars.map fun p => (p.1, strLit p.2)),
        Json.jobj (st.global_vars.map fun p => (p.1, Json.jstr p.2)))]
    ("elf_path", '"' :: (st.elf_path.toList ++ ['"']), Json.jstr st.elf_path)
    (by
      intro x hx
      simp only [List.mem_cons, List.not_mem_nil, or_false] at hx
      rcases hx with rfl | rfl | rfl | rfl | rfl | rfl
      · exact parsesTo_rawStr st.elf_path hp
      · exact parsesTo_rawStr st.md5_hash hh
      · exact parsesTo_streamArr printSymbol Symbol.toJson parsesToObj_printSymbol
          (fun _ => ⟨_, rfl⟩) st.symbols
      · exact parsesTo_streamArr printFunction Function.toJson parsesToObj_printFunction
          (fun _ => ⟨_, rfl⟩) st.functions
      · exact (parsesToObj_structObj st.structures).parsesTo
      · exact (parsesToObj_globalsObj st.global_vars).parsesTo)
  have happ := hobj [] (st.save_cache.length + 1) (by
    rw [List.append_nil]
    exact Nat.le_succ _)
  rw [List.append_nil] at happ
  unfold json_load
  have e : parseAny (st.save_cache.length + 1) 0 st.save_cache.toList
      = some (st.save_cache_doc, []) := happ
  rw [e]
  rfl

/-- A state whose `elf_path` holds a quote: the raw f-string splice of
`save_cache` then closes the JSON string literal early and the next
raw characters are a syntax error. -/
def stBad : ParserState :=
  { elf_syms := [],
    symbols := [{ name := "main", address := 0x1000, size := 8, symbol_type := "STT_FUNC",
                  binding := "STB_GLOBAL", sectionName := ".text" }],
    functions := [{ name := "main", address := 0x1000, size := 8,
                    parameters := [], return_type := none }],
    structures := [("S", [{ name := "f0", type := "int" }])],
    global_vars := [("g", "int")],
    sorted_func_addrs := [0x1000],
    arch := "x64", has_elf := true, sections := [],
    elf_path := "a\"b.elf", md5_hash := "d41d8cd98f00b204e9800998ecf8427e" }

set_option maxRecDepth 4000 in
/-- C4 counterexample: for the state `stBad`, whose `elf_path` holds
one quote, the file `save_cache` writes does not parse -- `json.load`
raises, `load_cache` returns `False` and restores nothing -- although
all four saved collections are nonempty, so saving then restoring does
not reproduce them, against the claim that the round trip holds for
every parser state. -/
theorem claim_C4_counterexample :
    load_cache_from_text (ParserState.save_cache stBad) = none ∧
    stBad.symbols ≠ [] ∧ stBad.functions ≠ [] ∧
    stBad.structures ≠ [] ∧ stBad.global_vars ≠ [] := by
  refine ⟨rfl, ?_, ?_, ?_, ?_⟩ <;> exact List.cons_ne_nil _ _

/-- C4 (amended): whenever the spliced `elf_path` and `elf_hash`
strings contain no quote, backslash or control character -- so the raw
f-string splices of `save_cache` stay inside their JSON string
literals -- saving a snapshot and loading it back reproduces the
Symbol, Function, structure and global-variable collections element
for element; for a state violating that condition the written file can
be unparseable, in which case `load_cache` returns `False` and
restores nothing. -/
theorem claim_C4 (st : ParserState)
    (hp : jsonStrSafe st.elf_path = true) (hh : jsonStrSafe st.md5_hash = true) :
    load_cache_from_text st.save_cache
      = some (st.symbols, st.functions, st.structures, st.global_vars) := by
  unfold load_cache_from_text
  rw [json_load_save_cache st hp hh]
  exact load_cache_collections_doc st

/-- C4 witness: the amended round trip at the concrete safe state
`stX` (path `p.elf`, hash `h`), both splices checked safe by
computation. -/
theorem claim_C4_witness :
    load_cache_from_text (ParserState.save_cache stX)
      = some (stX.symbols, stX.functions, stX.structures, stX.global_vars) :=
  claim_C4 stX (by decide) (by decide)

end ElfParser
